import Mathlib

/-!
Verification of the JSON document engine of `source/common/json/json_loader.cc`
(`Envoy::Json`): the `Field` variant tree, the SAX `ObjectHandler` construction
state machine, the typed accessor layer, canonical serialization via
`buildJsonDocument`/`asJsonString`, and the `Factory::loadFromString` entry
point.

Modelling conventions:
* C++ exceptions (`throw Exception(...)`) are embedded as `Except String`
  (the payload is the exception message).  The `NOT_REACHED_GCOVR_EXCL_LINE`
  assertion is embedded as a distinct `unreached`/`none` outcome, and
  undefined behaviour (`std::stack::top`/`pop` on an empty stack) as a
  distinct `ub` outcome.
* `std::map<std::string, FieldSharedPtr>` is embedded as an association list
  kept sorted by the bytewise `std::string` order.  Bytewise comparison of
  UTF-8 strings coincides with lexicographic comparison of unicode scalar
  values, which is what `strLt` below implements.
* C++ `double` payloads are embedded as exact rationals (`Rat`); every finite
  double is an exact rational.  The textual rendering of doubles
  (`renderDouble`) is abstracted: no claim verified here depends on the exact
  digits nlohmann prints for a double.
* Message strings from the C++ `fmt::format` calls are reproduced with the
  argument spliced in place of the placeholder; surrounding single quotes of
  the original messages are dropped (no verified property depends on them).
-/

namespace EnvoyJson

/-! ## Bytewise string order (std::map key comparison) -/

/-- Lexicographic order on character lists by unicode scalar value; this is
the order `std::map<std::string, ...>` uses (bytewise comparison of UTF-8
agrees with scalar-value order). -/
def strLtChars : List Char → List Char → Bool
  | [], [] => false
  | [], _ :: _ => true
  | _ :: _, [] => false
  | a :: as, b :: bs =>
    if a.toNat < b.toNat then true
    else if b.toNat < a.toNat then false
    else strLtChars as bs

/-- String order used for object keys. -/
def strLt (a b : String) : Bool := strLtChars a.data b.data

theorem strLtChars_irrefl (l : List Char) : strLtChars l l = false := by
  induction l with
  | nil => rfl
  | cons a as ih => simp [strLtChars, ih]

theorem char_eq_of_toNat_eq {a b : Char} (h : a.toNat = b.toNat) : a = b := by
  have hv : a.val = b.val := by
    have : a.val.toNat = b.val.toNat := h
    exact UInt32.toNat.inj this
  exact Char.ext hv

theorem strLtChars_eq_of_not_lt {l m : List Char}
    (h1 : strLtChars l m = false) (h2 : strLtChars m l = false) : l = m := by
  induction l generalizing m with
  | nil =>
    cases m with
    | nil => rfl
    | cons b bs => simp [strLtChars] at h1
  | cons a as ih =>
    cases m with
    | nil => simp [strLtChars] at h2
    | cons b bs =>
      simp only [strLtChars] at h1 h2
      by_cases hab : a.toNat < b.toNat
      · simp [hab] at h1
      · by_cases hba : b.toNat < a.toNat
        · simp [hab, hba] at h2
        · have hab' : a = b := char_eq_of_toNat_eq (by omega)
          simp [hab, hba] at h1 h2
          exact congrArg₂ _ hab' (ih h1 h2)

theorem strLtChars_trans {l m n : List Char}
    (h1 : strLtChars l m = true) (h2 : strLtChars m n = true) :
    strLtChars l n = true := by
  induction l generalizing m n with
  | nil =>
    cases m with
    | nil => simp [strLtChars] at h1
    | cons b bs =>
      cases n with
      | nil => simp [strLtChars] at h2
      | cons c cs => rfl
  | cons a as ih =>
    cases m with
    | nil => simp [strLtChars] at h1
    | cons b bs =>
      cases n with
      | nil => simp [strLtChars] at h2
      | cons c cs =>
        simp only [strLtChars] at h1 h2 ⊢
        by_cases hab : a.toNat < b.toNat
        · by_cases hbc : b.toNat < c.toNat
          · simp [show a.toNat < c.toNat by omega]
          · by_cases hcb : c.toNat < b.toNat
            · simp [hbc, hcb] at h2
            · have : b.toNat = c.toNat := by omega
              simp [show a.toNat < c.toNat by omega]
        · by_cases hba : b.toNat < a.toNat
          · simp [hab, hba] at h1
          · have hab' : a.toNat = b.toNat := by omega
            by_cases hbc : b.toNat < c.toNat
            · simp [show a.toNat < c.toNat by omega]
            · by_cases hcb : c.toNat < b.toNat
              · simp [hbc, hcb] at h2
              · simp [hab, hba] at h1
                simp [hbc, hcb] at h2
                simp [show ¬ a.toNat < c.toNat by omega,
                      show ¬ c.toNat < a.toNat by omega]
                exact ih h1 h2

theorem strLt_irrefl (s : String) : strLt s s = false := strLtChars_irrefl _

theorem strLt_eq_of_not_lt {a b : String}
    (h1 : strLt a b = false) (h2 : strLt b a = false) : a = b := by
  cases a; cases b
  exact congrArg _ (strLtChars_eq_of_not_lt h1 h2)

theorem strLt_trans {a b c : String}
    (h1 : strLt a b = true) (h2 : strLt b c = true) : strLt a c = true :=
  strLtChars_trans h1 h2

theorem strLt_asymm {a b : String} (h : strLt a b = true) : strLt b a = false := by
  by_contra hc
  have h2 : strLt b a = true := by
    cases hh : strLt b a
    · exact absurd hh hc
    · rfl
  have := strLt_trans h h2
  rw [strLt_irrefl] at this
  exact Bool.noConfusion this

theorem strLt_total {a b : String} (h : a ≠ b) :
    strLt a b = true ∨ strLt b a = true := by
  cases h1 : strLt a b
  · cases h2 : strLt b a
    · exact absurd (strLt_eq_of_not_lt h1 h2) h
    · exact Or.inr rfl
  · exact Or.inl rfl

/-! ## The `Field` variant tree

`class Field : public Object` with
`enum class Type { Array, Boolean, Double, Integer, Null, Object, String }`
and payload `Value` (vector / bool / double / int64 / map / string).
The object payload `std::map<std::string, FieldSharedPtr>` is embedded as the
sorted association list `Entries`; the array payload as the list `Elems`. -/

mutual

inductive Field where
  | nullF : Field
  | booleanF (b : Bool) : Field
  | integerF (i : Int) : Field
  | doubleF (d : Rat) : Field
  | stringF (s : String) : Field
  | arrayF (elems : Elems) : Field
  | objectF (entries : Entries) : Field

inductive Elems where
  | nil : Elems
  | cons (hd : Field) (tl : Elems) : Elems

inductive Entries where
  | nil : Entries
  | cons (key : String) (val : Field) (tl : Entries) : Entries

end

/-- The `Type` tag of a field (`Field::type_`). -/
inductive FTag where
  | tArray | tBoolean | tDouble | tInteger | tNull | tObject | tString
deriving DecidableEq, Repr

def Field.tag : Field → FTag
  | .nullF => .tNull
  | .booleanF _ => .tBoolean
  | .integerF _ => .tInteger
  | .doubleF _ => .tDouble
  | .stringF _ => .tString
  | .arrayF _ => .tArray
  | .objectF _ => .tObject

/-- `Field::typeAsString`. -/
def FTag.asString : FTag → String
  | .tArray => "Array"
  | .tBoolean => "Boolean"
  | .tDouble => "Double"
  | .tInteger => "Integer"
  | .tNull => "Null"
  | .tObject => "Object"
  | .tString => "String"

def Field.isNullB (f : Field) : Bool := f.tag = FTag.tNull
def Field.isArrayB (f : Field) : Bool := f.tag = FTag.tArray
def Field.isObjectB (f : Field) : Bool := f.tag = FTag.tObject

/-! ### List views and basic operations on the payloads -/

def Elems.toList : Elems → List Field
  | .nil => []
  | .cons h t => h :: Elems.toList t

/-- `std::vector::push_back`. -/
def Elems.push : Elems → Field → Elems
  | .nil, f => .cons f .nil
  | .cons h t, f => .cons h (Elems.push t f)

def Elems.appendE : Elems → Elems → Elems
  | .nil, e => e
  | .cons h t, e => .cons h (Elems.appendE t e)

def Entries.toList : Entries → List (String × Field)
  | .nil => []
  | .cons k v t => (k, v) :: Entries.toList t

def Entries.keys : Entries → List String
  | .nil => []
  | .cons k _ t => k :: Entries.keys t

/-- `std::map::find`. -/
def Entries.lookup (name : String) : Entries → Option Field
  | .nil => none
  | .cons k v t => if k = name then some v else Entries.lookup name t

/-- `map[key] = value` on a sorted association list: ordered insert with
overwrite for an existing key (the `std::map` assignment used by
`Field::insert`). -/
def Entries.insertS (key : String) (val : Field) : Entries → Entries
  | .nil => .cons key val .nil
  | .cons k v t =>
    if strLt key k then .cons key val (.cons k v t)
    else if strLt k key then .cons k v (Entries.insertS key val t)
    else .cons key val t

/-- Strict sortedness of the keys (the `std::map` representation invariant). -/
def Entries.sortedB : Entries → Bool
  | .nil => true
  | .cons _ _ .nil => true
  | .cons k _ (.cons k2 v2 t) => strLt k k2 && Entries.sortedB (.cons k2 v2 t)

/-! ## Query/accessor layer (`Field::get*`, `Field::as*`, `empty`, `hasObject`,
`iterate`, `validateSchema`) -/

/-- Message of the `Field::checkType` exception. -/
def typeErrMsg (expected actual : FTag) : String :=
  "JSON field accessed with type " ++ expected.asString ++
    " does not match actual type " ++ actual.asString ++ "."

/-- `Field::getBoolean(name)`. -/
def Field.getBoolean : Field → String → Except String Bool
  | .objectF es, name =>
    match es.lookup name with
    | some (.booleanF b) => .ok b
    | _ => .error ("key " ++ name ++ " missing or not a boolean")
  | f, _ => .error (typeErrMsg .tObject f.tag)

/-- `Field::getBoolean(name, default_value)`. -/
def Field.getBooleanD : Field → String → Bool → Except String Bool
  | .objectF es, name, dflt =>
    if (es.lookup name).isSome then Field.getBoolean (.objectF es) name
    else .ok dflt
  | f, _, _ => .error (typeErrMsg .tObject f.tag)

/-- `Field::getDouble(name)`. -/
def Field.getDouble : Field → String → Except String Rat
  | .objectF es, name =>
    match es.lookup name with
    | some (.doubleF d) => .ok d
    | _ => .error ("key " ++ name ++ " missing or not a double")
  | f, _ => .error (typeErrMsg .tObject f.tag)

/-- `Field::getDouble(name, default_value)`. -/
def Field.getDoubleD : Field → String → Rat → Except String Rat
  | .objectF es, name, dflt =>
    if (es.lookup name).isSome then Field.getDouble (.objectF es) name
    else .ok dflt
  | f, _, _ => .error (typeErrMsg .tObject f.tag)

/-- `Field::getInteger(name)`. -/
def Field.getInteger : Field → String → Except String Int
  | .objectF es, name =>
    match es.lookup name with
    | some (.integerF i) => .ok i
    | _ => .error ("key " ++ name ++ " missing or not an integer")
  | f, _ => .error (typeErrMsg .tObject f.tag)

/-- `Field::getInteger(name, default_value)`. -/
def Field.getIntegerD : Field → String → Int → Except String Int
  | .objectF es, name, dflt =>
    if (es.lookup name).isSome then Field.getInteger (.objectF es) name
    else .ok dflt
  | f, _, _ => .error (typeErrMsg .tObject f.tag)

/-- `Field::getString(name)`. -/
def Field.getString : Field → String → Except String String
  | .objectF es, name =>
    match es.lookup name with
    | some (.stringF s) => .ok s
    | _ => .error ("key " ++ name ++ " missing or not a string")
  | f, _ => .error (typeErrMsg .tObject f.tag)

/-- `Field::getString(name, default_value)`. -/
def Field.getStringD : Field → String → String → Except String String
  | .objectF es, name, dflt =>
    if (es.lookup name).isSome then Field.getString (.objectF es) name
    else .ok dflt
  | f, _, _ => .error (typeErrMsg .tObject f.tag)

/-- `Field::getObject(name, allow_empty)`. -/
def Field.getObject : Field → String → Bool → Except String Field
  | .objectF es, name, allowEmpty =>
    match es.lookup name with
    | none =>
      if allowEmpty then .ok (.objectF .nil)
      else .error ("key " ++ name ++ " missing from lines")
    | some v =>
      if v.tag = .tObject then .ok v
      else .error ("key " ++ name ++ " not an object")
  | f, _, _ => .error (typeErrMsg .tObject f.tag)

/-- `Field::getObjectArray(name, allow_empty)`. -/
def Field.getObjectArray : Field → String → Bool → Except String (List Field)
  | .objectF es, name, allowEmpty =>
    match es.lookup name with
    | some (.arrayF a) => .ok a.toList
    | none =>
      if allowEmpty then .ok []
      else .error ("key " ++ name ++ " missing or not an array")
    | some _ => .error ("key " ++ name ++ " missing or not an array")
  | f, _, _ => .error (typeErrMsg .tObject f.tag)

/-- The element loop of `Field::getStringArray`. -/
def stringElems (name : String) : List Field → Except String (List String)
  | [] => .ok []
  | .stringF s :: t => (stringElems name t).map (s :: ·)
  | _ :: _ => .error ("JSON array " ++ name ++ " does not contain all strings")

/-- `Field::getStringArray(name, allow_empty)`. -/
def Field.getStringArray : Field → String → Bool → Except String (List String)
  | .objectF es, name, allowEmpty =>
    match es.lookup name with
    | some (.arrayF a) => stringElems name a.toList
    | none =>
      if allowEmpty then .ok []
      else .error ("key " ++ name ++ " missing or not an array")
    | some _ => .error ("key " ++ name ++ " missing or not an array")
  | f, _, _ => .error (typeErrMsg .tObject f.tag)

/-- `Field::asObjectArray`. -/
def Field.asObjectArray : Field → Except String (List Field)
  | .arrayF a => .ok a.toList
  | f => .error (typeErrMsg .tArray f.tag)

/-- `Field::asString` (via `stringValue`). -/
def Field.asStringV : Field → Except String String
  | .stringF s => .ok s
  | f => .error (typeErrMsg .tString f.tag)

/-- `Field::asBoolean` (via `booleanValue`). -/
def Field.asBooleanV : Field → Except String Bool
  | .booleanF b => .ok b
  | f => .error (typeErrMsg .tBoolean f.tag)

/-- `Field::asDouble` (via `doubleValue`). -/
def Field.asDoubleV : Field → Except String Rat
  | .doubleF d => .ok d
  | f => .error (typeErrMsg .tDouble f.tag)

/-- `Field::asInteger` (via `integerValue`). -/
def Field.asIntegerV : Field → Except String Int
  | .integerF i => .ok i
  | f => .error (typeErrMsg .tInteger f.tag)

/-- `Field::empty`. -/
def Field.emptyB : Field → Except String Bool
  | .objectF .nil => .ok true
  | .objectF (.cons _ _ _) => .ok false
  | .arrayF .nil => .ok true
  | .arrayF (.cons _ _) => .ok false
  | _ => .error ("Json does not support empty() on types other than array and object")

/-- `Field::hasObject`. -/
def Field.hasObject : Field → String → Except String Bool
  | .objectF es, name => .ok (es.lookup name).isSome
  | f, _ => .error (typeErrMsg .tObject f.tag)

/-- The visit trace of `Field::iterate`: the callback is invoked on entries in
internal (sorted) order and iteration stops after the first entry on which it
returns `false`. -/
def Entries.iterTrace (cb : String → Field → Bool) : Entries → List (String × Field)
  | .nil => []
  | .cons k v t => if cb k v then (k, v) :: Entries.iterTrace cb t else [(k, v)]

/-- `Field::iterate`, returning the trace of visited entries. -/
def Field.iterate : Field → (String → Field → Bool) → Except String (List (String × Field))
  | .objectF es, cb => .ok (es.iterTrace cb)
  | f, _ => .error (typeErrMsg .tObject f.tag)

/-- `Field::validateSchema`. -/
def Field.validateSchema : Field → String → Except String Unit
  | _, _ => .error ("not implemented")

/-! ## Claims C5, C6, C7: accessor strictness -/

theorem stringElems_error {l : List Field} {v : Field} (name : String)
    (hv : v ∈ l) (ht : v.tag ≠ .tString) :
    stringElems name l =
      .error ("JSON array " ++ name ++ " does not contain all strings") := by
  induction l with
  | nil => cases hv
  | cons h t ih =>
    cases h with
    | stringF s =>
      rcases List.mem_cons.mp hv with heq | hmem
      · subst heq; exact absurd rfl ht
      · simp [stringElems, ih hmem, Except.map]
    | nullF => rfl
    | booleanF b => rfl
    | integerF i => rfl
    | doubleF d => rfl
    | arrayF a => rfl
    | objectF o => rfl

/-- C5: for every Object node and key, the defaulted accessors
(`getBoolean`/`getDouble`/`getInteger`/`getString` with a default argument)
return the stored value when the key exists with the exact matching scalar
tag, fail with the key-missing-or-wrong-type error when the key exists with a
non-matching tag (never silently returning the default), and return the
supplied default exactly when the key is entirely absent. -/
theorem c5_defaulted_accessors_strict (es : Entries) (name : String)
    (bd : Bool) (dd : Rat) (nd : Int) (sd : String) :
    (∀ b, es.lookup name = some (.booleanF b) →
      (Field.objectF es).getBooleanD name bd = .ok b) ∧
    (∀ v, es.lookup name = some v → v.tag ≠ .tBoolean →
      (Field.objectF es).getBooleanD name bd =
        .error ("key " ++ name ++ " missing or not a boolean")) ∧
    (es.lookup name = none → (Field.objectF es).getBooleanD name bd = .ok bd) ∧
    (∀ d, es.lookup name = some (.doubleF d) →
      (Field.objectF es).getDoubleD name dd = .ok d) ∧
    (∀ v, es.lookup name = some v → v.tag ≠ .tDouble →
      (Field.objectF es).getDoubleD name dd =
        .error ("key " ++ name ++ " missing or not a double")) ∧
    (es.lookup name = none → (Field.objectF es).getDoubleD name dd = .ok dd) ∧
    (∀ i, es.lookup name = some (.integerF i) →
      (Field.objectF es).getIntegerD name nd = .ok i) ∧
    (∀ v, es.lookup name = some v → v.tag ≠ .tInteger →
      (Field.objectF es).getIntegerD name nd =
        .error ("key " ++ name ++ " missing or not an integer")) ∧
    (es.lookup name = none → (Field.objectF es).getIntegerD name nd = .ok nd) ∧
    (∀ s, es.lookup name = some (.stringF s) →
      (Field.objectF es).getStringD name sd = .ok s) ∧
    (∀ v, es.lookup name = some v → v.tag ≠ .tString →
      (Field.objectF es).getStringD name sd =
        .error ("key " ++ name ++ " missing or not a string")) ∧
    (es.lookup name = none → (Field.objectF es).getStringD name sd = .ok sd) := by
  refine ⟨?_, ?_, ?_, ?_, ?_, ?_, ?_, ?_, ?_, ?_, ?_, ?_⟩
  · intro b h; simp [Field.getBooleanD, h, Field.getBoolean]
  · intro v h hv
    cases v <;> simp_all [Field.getBooleanD, Field.getBoolean, Field.tag]
  · intro h; simp [Field.getBooleanD, h]
  · intro d h; simp [Field.getDoubleD, h, Field.getDouble]
  · intro v h hv
    cases v <;> simp_all [Field.getDoubleD, Field.getDouble, Field.tag]
  · intro h; simp [Field.getDoubleD, h]
  · intro i h; simp [Field.getIntegerD, h, Field.getInteger]
  · intro v h hv
    cases v <;> simp_all [Field.getIntegerD, Field.getInteger, Field.tag]
  · intro h; simp [Field.getIntegerD, h]
  · intro s h; simp [Field.getStringD, h, Field.getString]
  · intro v h hv
    cases v <;> simp_all [Field.getStringD, Field.getString, Field.tag]
  · intro h; simp [Field.getStringD, h]

theorem c5_defaulted_accessors_strict_witness :
    ((Field.objectF (.cons ("a") (.stringF ("s")) .nil)).getIntegerD ("a") 7 =
      .error ("key a missing or not an integer")) ∧
    ((Field.objectF (.cons ("a") (.stringF ("s")) .nil)).getIntegerD ("b") 7 = .ok 7) := by
  constructor
  · exact (c5_defaulted_accessors_strict
        (.cons ("a") (.stringF ("s")) .nil) ("a") false 0 7 ("")).2.2.2.2.2.2.2.1
      (.stringF ("s")) rfl (by decide)
  · exact (c5_defaulted_accessors_strict
        (.cons ("a") (.stringF ("s")) .nil) ("b") false 0 7 ("")).2.2.2.2.2.2.2.2.1
      rfl

/-- C6: for every Object node, key and `allowEmpty` flag, `getObjectArray`
and `getStringArray` fail with the wrong-type error whenever a value is
present at the key but is not an Array, regardless of `allowEmpty`
(`allowEmpty` only suppresses the missing-key error, returning an empty
sequence); and `getStringArray` fails as a whole whenever any element of the
array is not a String. -/
theorem c6_array_accessors_homogeneous (es : Entries) (name : String) (allowEmpty : Bool) :
    (∀ v, es.lookup name = some v → v.tag ≠ .tArray →
      (Field.objectF es).getObjectArray name allowEmpty =
        .error ("key " ++ name ++ " missing or not an array") ∧
      (Field.objectF es).getStringArray name allowEmpty =
        .error ("key " ++ name ++ " missing or not an array")) ∧
    (es.lookup name = none → allowEmpty = true →
      (Field.objectF es).getObjectArray name allowEmpty = .ok [] ∧
      (Field.objectF es).getStringArray name allowEmpty = .ok []) ∧
    (es.lookup name = none → allowEmpty = false →
      (Field.objectF es).getObjectArray name allowEmpty =
        .error ("key " ++ name ++ " missing or not an array") ∧
      (Field.objectF es).getStringArray name allowEmpty =
        .error ("key " ++ name ++ " missing or not an array")) ∧
    (∀ a v, es.lookup name = some (.arrayF a) → v ∈ a.toList → v.tag ≠ .tString →
      (Field.objectF es).getStringArray name allowEmpty =
        .error ("JSON array " ++ name ++ " does not contain all strings")) := by
  refine ⟨?_, ?_, ?_, ?_⟩
  · intro v h hv
    cases v <;>
      simp_all [Field.getObjectArray, Field.getStringArray, Field.tag]
  · intro h ha; subst ha
    simp [Field.getObjectArray, Field.getStringArray, h]
  · intro h ha; subst ha
    simp [Field.getObjectArray, Field.getStringArray, h]
  · intro a v h hv ht
    simp [Field.getStringArray, h, stringElems_error name hv ht]

theorem c6_array_accessors_homogeneous_witness :
    (Field.objectF (.cons ("a")
        (.arrayF (.cons (.stringF ("x")) (.cons (.integerF 1) .nil))) .nil)).getStringArray
      ("a") false =
      .error ("JSON array a does not contain all strings") := by
  exact (c6_array_accessors_homogeneous
      (.cons ("a") (.arrayF (.cons (.stringF ("x")) (.cons (.integerF 1) .nil))) .nil)
      ("a") false).2.2.2
    (.cons (.stringF ("x")) (.cons (.integerF 1) .nil)) (.integerF 1)
    rfl (by simp [Elems.toList]) (by decide)

/-- C7: for every Object node and key, `getObject(key, allowEmpty)` returns
the child Object when present and of Object tag; when the key is absent and
`allowEmpty` is true it synthesizes a fresh empty Object (for which `empty()`
is true); when the key is absent and `allowEmpty` is false it fails with the
key-missing error; and when a value is present but is not an Object it fails
with the not-an-object error regardless of `allowEmpty`. -/
theorem c7_getObject_empty_allowance (es : Entries) (name : String) :
    (∀ v b, es.lookup name = some v → v.tag = .tObject →
      (Field.objectF es).getObject name b = .ok v) ∧
    (∀ v b, es.lookup name = some v → v.tag ≠ .tObject →
      (Field.objectF es).getObject name b =
        .error ("key " ++ name ++ " not an object")) ∧
    (es.lookup name = none →
      (Field.objectF es).getObject name true = .ok (.objectF .nil) ∧
      (Field.objectF Entries.nil).emptyB = .ok true ∧
      (Field.objectF es).getObject name false =
        .error ("key " ++ name ++ " missing from lines")) := by
  refine ⟨?_, ?_, ?_⟩
  · intro v b h hv; simp [Field.getObject, h, hv]
  · intro v b h hv; simp [Field.getObject, h, hv]
  · intro h
    exact ⟨by simp [Field.getObject, h], rfl, by simp [Field.getObject, h]⟩

theorem c7_getObject_empty_allowance_witness :
    ((Field.objectF Entries.nil).getObject ("missing") true = .ok (.objectF .nil)) ∧
    ((Field.objectF Entries.nil).emptyB = .ok true) ∧
    ((Field.objectF Entries.nil).getObject ("missing") false =
      .error ("key missing missing from lines")) :=
  (c7_getObject_empty_allowance Entries.nil ("missing")).2.2 rfl

/-! ## Serialization (`Field::buildJsonDocument` + `nlohmann::json::dump`)

`asJsonDocument` starts from a default-constructed (null) `nlohmann::json`
value and `buildJsonDocument` fills it: `push_back`/`emplace` convert a null
json value into an array/object on the first child, so a container with **no**
children leaves the json value null and it prints as `null`.  The top-level
switch of `buildJsonDocument` handles only `Array`, `Object` and `Null` and
hits `NOT_REACHED` for scalar tags (modelled as `none`); scalar tags nested
inside containers are rendered inline.  `dump()` prints compact JSON (no
whitespace) with object members in the sorted map order. -/

/-- Lowercase hex digit, as printed by nlohmann for control-character
escapes. -/
def hexDigitChar (n : Nat) : Char :=
  if n < 10 then Char.ofNat (48 + n) else Char.ofNat (87 + n)

/-- One character of a JSON string, as escaped by `nlohmann::json::dump`
(`"` and `\` get a backslash, the usual control shorthands, and remaining
control characters become `\u00xx`). -/
def escapeChar (c : Char) : List Char :=
  if c = '"' then [ '\\', '"' ]
  else if c = '\\' then [ '\\', '\\' ]
  else if c = Char.ofNat 8 then [ '\\', 'b' ]
  else if c = Char.ofNat 12 then [ '\\', 'f' ]
  else if c = '\n' then [ '\\', 'n' ]
  else if c = Char.ofNat 13 then [ '\\', 'r' ]
  else if c = '\t' then [ '\\', 't' ]
  else if c.toNat < 32 then
    [ '\\', 'u', '0', '0', hexDigitChar (c.toNat / 16), hexDigitChar (c.toNat % 16) ]
  else [c]

def escapeStr : List Char → List Char
  | [] => []
  | c :: t => escapeChar c ++ escapeStr t

/-- Decimal digit character. -/
def decDigitChar (n : Nat) : Char := Char.ofNat (48 + n)

/-- Decimal digits of a natural number (most significant first), accumulator
form. -/
def natDigitsAux (n : Nat) (acc : List Char) : List Char :=
  if h : n < 10 then decDigitChar n :: acc
  else natDigitsAux (n / 10) (decDigitChar (n % 10) :: acc)
decreasing_by exact Nat.div_lt_self (by omega) (by omega)

def natDigits (n : Nat) : List Char := natDigitsAux n []

/-- Decimal rendering of an `int64_t`. -/
def intChars (i : Int) : List Char :=
  if i < 0 then '-' :: natDigits i.natAbs else natDigits i.natAbs

/-- Abstracted rendering of a `double`: nlohmann prints a shortest
round-trip decimal form; no verified claim depends on the exact digits, only
on rendering being a function of the stored value. -/
def renderDouble (d : Rat) : List Char := (toString d).data

/-- `std::string(s.c_str())`, as applied to each member name in the Object
case of `buildJsonDocument` (`auto name = std::string(item.first.c_str());`):
re-reading the key through `c_str()` truncates it at the first embedded NUL
byte.  String *values* are passed as whole `std::string`s and are not
truncated. -/
def cStr (l : List Char) : List Char := l.takeWhile (fun c => c.toNat != 0)

/-- No embedded NUL character. -/
def nulFree (l : List Char) : Bool := l.all (fun c => c.toNat != 0)

theorem cStr_of_nulFree : ∀ {l : List Char}, nulFree l = true → cStr l = l := by
  intro l
  induction l with
  | nil => intro _; rfl
  | cons c t ih =>
    intro h
    simp only [nulFree, List.all_cons, Bool.and_eq_true] at h
    have ht : cStr t = t := ih h.2
    simp only [cStr] at ht ⊢
    simp [List.takeWhile_cons, h.1, ht]

mutual

/-- Rendering of a node nested inside a container (the per-element /
per-member cases of `buildJsonDocument`, plus `dump`).  Empty containers
render as `null` because no `push_back`/`emplace` ever converts the
default-constructed null json value. -/
def dumpNested : Field → List Char
  | .nullF => 'n' :: 'u' :: 'l' :: 'l' :: []
  | .booleanF true => 't' :: 'r' :: 'u' :: 'e' :: []
  | .booleanF false => 'f' :: 'a' :: 'l' :: 's' :: 'e' :: []
  | .integerF i => intChars i
  | .doubleF d => renderDouble d
  | .stringF s => '"' :: (escapeStr s.data ++ [ '"' ])
  | .arrayF .nil => 'n' :: 'u' :: 'l' :: 'l' :: []
  | .arrayF (.cons h t) => '[' :: (dumpElems (.cons h t) ++ [ ']' ])
  | .objectF .nil => 'n' :: 'u' :: 'l' :: 'l' :: []
  | .objectF (.cons k v t) => '{' :: (dumpEntries (.cons k v t) ++ [ '}' ])

/-- Comma-separated array elements. -/
def dumpElems : Elems → List Char
  | .nil => []
  | .cons h .nil => dumpNested h
  | .cons h (.cons h2 t) => dumpNested h ++ ',' :: dumpElems (.cons h2 t)

/-- Comma-separated object members, in the stored (sorted) order.  The
member name is re-read through `c_str()` (`cStr`), truncating it at its
first embedded NUL byte. -/
def dumpEntries : Entries → List Char
  | .nil => []
  | .cons k v .nil => '"' :: (escapeStr (cStr k.data) ++ '"' :: ':' :: dumpNested v)
  | .cons k v (.cons k2 v2 t) =>
    ('"' :: (escapeStr (cStr k.data) ++ '"' :: ':' :: dumpNested v)) ++
      ',' :: dumpEntries (.cons k2 v2 t)

end

/-- The characters of `Field::asJsonString`: the root switch of
`buildJsonDocument` handles `Array`, `Object` and `Null` and hits
`NOT_REACHED` (modelled `none`) for scalar roots. -/
def dumpVal : Field → Option (List Char)
  | .nullF => some ('n' :: 'u' :: 'l' :: 'l' :: [])
  | .arrayF es => some (dumpNested (.arrayF es))
  | .objectF es => some (dumpNested (.objectF es))
  | _ => none

/-- `Field::asJsonString`. -/
def Field.asJsonString (f : Field) : Option String :=
  (dumpVal f).map (fun l => String.mk l)

/-- Modelled from the spec: `HashUtil::xxHash64` (declared in
`common/common/hash.h`, not among the provided sources).  The spec specifies
only a deterministic, non-cryptographic 64-bit hash of the canonical text
form; a concrete deterministic 64-bit fold stands in for it. -/
def xxHash64 (s : String) : Nat :=
  s.data.foldl (fun h c => (h * 1099511628211 + c.toNat) % (2 ^ 64)) 14695981039346656037

/-- `Field::hash` (`HashUtil::xxHash64(asJsonString())`); fails (assertion)
exactly where `asJsonString` does. -/
def Field.hash (f : Field) : Option Nat := (f.asJsonString).map xxHash64

/-! ## Claim C3: totality of serialization -/

/-- C3 counterexample: the claim says rendering is total for every tag, but
`buildJsonDocument` hits the `NOT_REACHED` assertion (modelled as `none`) on
a scalar-tagged root such as an Integer node. -/
theorem c3_counterexample_scalar_root :
    (Field.integerF 5).asJsonString = none := rfl

/-- C3 (amended): serialization is total for every node whose tag is `Null`,
`Array` or `Object` (the tags the root switch of `buildJsonDocument`
handles); scalar tags are rendered only when nested inside containers, and a
scalar-tagged root hits the `NOT_REACHED` assertion. -/
theorem c3_serialization_total_on_containers (f : Field)
    (h : f.tag = .tNull ∨ f.tag = .tArray ∨ f.tag = .tObject) :
    ∃ s, f.asJsonString = some s := by
  cases f <;> simp_all [Field.tag, Field.asJsonString, dumpVal]

theorem c3_serialization_total_on_containers_witness :
    ∃ s, (Field.objectF (.cons ("a") (.integerF 1) .nil)).asJsonString = some s :=
  c3_serialization_total_on_containers _ (Or.inr (Or.inr rfl))

/-! ## Induction principles for the mutual tree type -/

theorem entriesInd {motive : Entries → Prop} (hnil : motive .nil)
    (hcons : ∀ k v t, motive t → motive (.cons k v t)) : ∀ es, motive es
  | .nil => hnil
  | .cons k v t => hcons k v t (entriesInd hnil hcons t)

theorem elemsInd {motive : Elems → Prop} (hnil : motive .nil)
    (hcons : ∀ h t, motive t → motive (.cons h t)) : ∀ es, motive es
  | .nil => hnil
  | .cons h t => hcons h t (elemsInd hnil hcons t)

/-! ## Sorted-map lemmas for claim C9 -/

/-- Keys of a list of key/value pairs. -/
def keysL (l : List (String × Field)) : List String := l.map Prod.fst

/-- `Field::insert` restricted to the entries payload (uncurried step for
folds). -/
def insKV (es : Entries) (e : String × Field) : Entries := es.insertS e.1 e.2

/-- The object payload obtained by performing the given sequence of
`insert(key, value)` calls on a fresh empty Object. -/
def Entries.ofListIns (l : List (String × Field)) : Entries := l.foldl insKV .nil

/-- The `std::map` representation invariant: keys strictly ascending. -/
def SortedP (es : Entries) : Prop :=
  es.keys.Pairwise (fun a b => strLt a b = true)

theorem lookup_insertS (es : Entries) (k : String) (v : Field) (k' : String) :
    (es.insertS k v).lookup k' = if k = k' then some v else es.lookup k' := by
  induction es using entriesInd with
  | hnil => simp [Entries.insertS, Entries.lookup]
  | hcons k0 v0 t ih =>
    by_cases hlt : strLt k k0 = true
    · simp [Entries.insertS, hlt, Entries.lookup]
    · by_cases hgt : strLt k0 k = true
      · have hne : k ≠ k0 := by
          intro he; subst he; rw [strLt_irrefl] at hgt; exact Bool.noConfusion hgt
        simp only [Entries.insertS, hlt, hgt, if_true, if_false, Entries.lookup, ih]
        by_cases hk0 : k0 = k'
        · subst hk0; simp [hne]
        · simp [hk0]
      · have he : k = k0 :=
          strLt_eq_of_not_lt (Bool.eq_false_iff.mpr hlt) (Bool.eq_false_iff.mpr hgt)
        subst he
        by_cases hk : k = k'
        · subst hk; simp [Entries.insertS, hlt, hgt, Entries.lookup]
        · simp [Entries.insertS, hlt, hgt, Entries.lookup, hk]

theorem keys_insertS_mem {es : Entries} {k x : String} (v : Field)
    (h : x ∈ (es.insertS k v).keys) : x = k ∨ x ∈ es.keys := by
  induction es using entriesInd with
  | hnil => simp_all [Entries.insertS, Entries.keys]
  | hcons k0 v0 t ih =>
    by_cases hlt : strLt k k0 = true
    · simp_all [Entries.insertS, hlt, Entries.keys]
    · by_cases hgt : strLt k0 k = true
      · simp only [Entries.insertS, hlt, hgt, if_true, if_false] at h
        simp only [Entries.keys, List.mem_cons] at h ⊢
        rcases h with h | h
        · exact Or.inr (Or.inl h)
        · rcases ih h with h' | h'
          · exact Or.inl h'
          · exact Or.inr (Or.inr h')
      · have he : k = k0 :=
          strLt_eq_of_not_lt (Bool.eq_false_iff.mpr hlt) (Bool.eq_false_iff.mpr hgt)
        subst he
        simp_all [Entries.insertS, hlt, Entries.keys]

theorem insertS_sorted {es : Entries} (k : String) (v : Field)
    (h : SortedP es) : SortedP (es.insertS k v) := by
  induction es using entriesInd with
  | hnil => simp [Entries.insertS, SortedP, Entries.keys]
  | hcons k0 v0 t ih =>
    simp only [SortedP, Entries.keys, List.pairwise_cons] at h
    obtain ⟨h0, ht⟩ := h
    by_cases hlt : strLt k k0 = true
    · simp only [SortedP, Entries.insertS, hlt, if_true, Entries.keys,
        List.pairwise_cons]
      refine ⟨?_, ?_, ht⟩
      · intro x hx
        simp only [Entries.keys, List.mem_cons] at hx
        rcases hx with hx | hx
        · subst hx; exact hlt
        · exact strLt_trans hlt (h0 x hx)
      · exact h0
    · by_cases hgt : strLt k0 k = true
      · simp only [SortedP, Entries.insertS, hlt, hgt, if_true, if_false,
          Entries.keys, List.pairwise_cons]
        refine ⟨?_, ih (by simpa [SortedP] using ht)⟩
        intro x hx
        rcases keys_insertS_mem v hx with hx' | hx'
        · subst hx'; exact hgt
        · exact h0 x hx'
      · have he : k = k0 :=
          strLt_eq_of_not_lt (Bool.eq_false_iff.mpr hlt) (Bool.eq_false_iff.mpr hgt)
        subst he
        simp only [SortedP, Entries.insertS, hlt, hgt, if_false, Entries.keys,
          List.pairwise_cons]
        exact ⟨h0, ht⟩

theorem foldl_insKV_sorted (l : List (String × Field)) (acc : Entries)
    (h : SortedP acc) : SortedP (l.foldl insKV acc) := by
  induction l generalizing acc with
  | nil => exact h
  | cons e t ih => exact ih _ (insertS_sorted e.1 e.2 h)

theorem ofListIns_sorted (l : List (String × Field)) : SortedP (Entries.ofListIns l) :=
  foldl_insKV_sorted l .nil (by simp [SortedP, Entries.keys])

theorem lookup_some_key_mem {es : Entries} {k : String} {v : Field}
    (h : es.lookup k = some v) : k ∈ es.keys := by
  induction es using entriesInd with
  | hnil => simp [Entries.lookup] at h
  | hcons k0 v0 t ih =>
    simp only [Entries.lookup] at h
    by_cases hk : k0 = k
    · subst hk; simp [Entries.keys]
    · simp only [hk, if_false] at h
      simp [Entries.keys, ih h]

theorem lookup_eq_none_of_not_mem {es : Entries} {k : String}
    (h : k ∉ es.keys) : es.lookup k = none := by
  induction es using entriesInd with
  | hnil => rfl
  | hcons k0 v0 t ih =>
    simp only [Entries.keys, List.mem_cons] at h
    push_neg at h
    simp only [Entries.lookup, if_neg (Ne.symm h.1)]
    exact ih h.2

theorem sorted_lookup_ext (es1 : Entries) : ∀ es2 : Entries,
    SortedP es1 → SortedP es2 →
    (∀ k, es1.lookup k = es2.lookup k) → es1 = es2 := by
  induction es1 using entriesInd with
  | hnil =>
    intro es2 _ _ h
    cases es2 with
    | nil => rfl
    | cons k2 v2 t2 =>
      have := h k2
      simp [Entries.lookup] at this
  | hcons k1 v1 t1 ih =>
    intro es2 h1 h2 h
    cases es2 with
    | nil =>
      have := h k1
      simp [Entries.lookup] at this
    | cons k2 v2 t2 =>
      simp only [SortedP, Entries.keys, List.pairwise_cons] at h1 h2
      have hl1 : Entries.lookup k1 (.cons k1 v1 t1) = some v1 := by
        simp [Entries.lookup]
      have hl2 : Entries.lookup k2 (.cons k2 v2 t2) = some v2 := by
        simp [Entries.lookup]
      have hk12 : k1 = k2 := by
        have m1 : k1 ∈ (Entries.cons k2 v2 t2).keys :=
          lookup_some_key_mem (by rw [← h k1]; exact hl1)
        have m2 : k2 ∈ (Entries.cons k1 v1 t1).keys :=
          lookup_some_key_mem (by rw [h k2]; exact hl2)
        simp only [Entries.keys, List.mem_cons] at m1 m2
        rcases m1 with m1 | m1
        · exact m1
        · rcases m2 with m2 | m2
          · exact m2.symm
          · have l1 : strLt k2 k1 = true := h2.1 k1 m1
            have l2 : strLt k1 k2 = true := h1.1 k2 m2
            have := strLt_asymm l1
            rw [l2] at this
            exact absurd this (by simp)
      subst hk12
      have hv : v1 = v2 := by
        have := h k1
        rw [hl1, hl2] at this
        exact Option.some.inj this
      subst hv
      have htl : ∀ k, t1.lookup k = t2.lookup k := by
        intro k
        by_cases hk : k = k1
        · subst hk
          have n1 : k ∉ t1.keys := by
            intro hm
            have := h1.1 k hm
            rw [strLt_irrefl] at this
            exact Bool.noConfusion this
          have n2 : k ∉ t2.keys := by
            intro hm
            have := h2.1 k hm
            rw [strLt_irrefl] at this
            exact Bool.noConfusion this
          rw [lookup_eq_none_of_not_mem n1, lookup_eq_none_of_not_mem n2]
        · have hne : ¬ k1 = k := fun he => hk he.symm
          have := h k
          simp only [Entries.lookup, hne, if_false] at this
          exact this
      have st1 : SortedP t1 := by simp [SortedP]; exact h1.2
      have st2 : SortedP t2 := by simp [SortedP]; exact h2.2
      exact congrArg _ (ih t2 st1 st2 htl)

theorem lookup_foldl_not_mem {l : List (String × Field)} {k : String}
    (h : k ∉ keysL l) (acc : Entries) :
    (l.foldl insKV acc).lookup k = acc.lookup k := by
  induction l generalizing acc with
  | nil => rfl
  | cons e t ih =>
    simp only [keysL, List.map_cons, List.mem_cons] at h
    push_neg at h
    rw [List.foldl_cons, ih (by simpa [keysL] using h.2)]
    simp only [insKV]
    rw [lookup_insertS, if_neg (Ne.symm h.1)]

theorem lookup_foldl_mem {l : List (String × Field)} {k : String} {v : Field}
    (hmem : (k, v) ∈ l) (hnd : (keysL l).Nodup) (acc : Entries) :
    (l.foldl insKV acc).lookup k = some v := by
  induction l generalizing acc with
  | nil => cases hmem
  | cons e t ih =>
    obtain ⟨k1, v1⟩ := e
    simp only [keysL, List.map_cons, List.nodup_cons] at hnd
    rcases List.mem_cons.mp hmem with he | hm
    · cases he
      rw [List.foldl_cons, lookup_foldl_not_mem (by simpa [keysL] using hnd.1)]
      simp only [insKV]
      rw [lookup_insertS, if_pos rfl]
    · exact ih hm (by simpa [keysL] using hnd.2) _

theorem ofListIns_perm {l l' : List (String × Field)}
    (hperm : l.Perm l') (hnd : (keysL l).Nodup) :
    Entries.ofListIns l' = Entries.ofListIns l := by
  have hnd' : (keysL l').Nodup := (hperm.map Prod.fst).nodup_iff.mp hnd
  apply sorted_lookup_ext _ _ (ofListIns_sorted l') (ofListIns_sorted l)
  intro k
  by_cases hk : k ∈ keysL l
  · simp only [keysL, List.mem_map] at hk
    obtain ⟨⟨k0, v0⟩, hel, hek⟩ := hk
    simp only at hek
    subst hek
    have hel' : (k0, v0) ∈ l' := hperm.mem_iff.mp hel
    simp only [Entries.ofListIns]
    rw [lookup_foldl_mem hel' hnd', lookup_foldl_mem hel hnd]
  · have hk' : k ∉ keysL l' := by
      intro hm
      exact hk ((hperm.map Prod.fst).mem_iff.mpr hm)
    simp only [Entries.ofListIns]
    rw [lookup_foldl_not_mem hk', lookup_foldl_not_mem hk]

theorem keys_eq_toList_map (es : Entries) : es.keys = es.toList.map Prod.fst := by
  induction es using entriesInd with
  | hnil => rfl
  | hcons k v t ih => simp [Entries.keys, Entries.toList, ih]

theorem iterTrace_sublist (cb : String → Field → Bool) (es : Entries) :
    List.Sublist (es.iterTrace cb) es.toList := by
  induction es using entriesInd with
  | hnil => simp [Entries.iterTrace, Entries.toList]
  | hcons k v t ih =>
    rw [Entries.iterTrace.eq_def]
    simp only [Entries.toList]
    by_cases hcb : cb k v = true
    · rw [if_pos hcb]; exact ih.cons₂ _
    · rw [if_neg hcb]
      exact (List.nil_sublist _).cons₂ _

/-- C9: for every Object node built by a sequence of inserts, `iterate`
visits entries in ascending lexicographic key order (for any callback, the
visited keys are strictly ascending), serialization renders members in that
same internal sorted order, and any permutation of an insertion sequence
with distinct keys produces the identical node — hence character-identical
canonical text and equal content hashes. -/
theorem c9_sorted_iteration_order_independence
    (l l' : List (String × Field)) (cb : String → Field → Bool)
    (hperm : l.Perm l') (hnd : (keysL l).Nodup) :
    SortedP (Entries.ofListIns l) ∧
    (Field.objectF (Entries.ofListIns l)).iterate cb =
      .ok ((Entries.ofListIns l).iterTrace cb) ∧
    (((Entries.ofListIns l).iterTrace cb).map Prod.fst).Pairwise
      (fun a b => strLt a b = true) ∧
    Entries.ofListIns l' = Entries.ofListIns l ∧
    (Field.objectF (Entries.ofListIns l')).asJsonString =
      (Field.objectF (Entries.ofListIns l)).asJsonString ∧
    (Field.objectF (Entries.ofListIns l')).hash =
      (Field.objectF (Entries.ofListIns l)).hash := by
  have hsort := ofListIns_sorted l
  have heq := ofListIns_perm hperm hnd
  refine ⟨hsort, rfl, ?_, heq, by rw [heq], by rw [heq]⟩
  have hpw : ((Entries.ofListIns l).toList.map Prod.fst).Pairwise
      (fun a b => strLt a b = true) := by
    rw [← keys_eq_toList_map]; exact hsort
  exact hpw.sublist ((iterTrace_sublist cb _).map Prod.fst)

theorem c9_sorted_iteration_order_independence_witness :
    SortedP (Entries.ofListIns [(("b"), Field.integerF 1), (("a"), Field.integerF 2)]) ∧
    (Field.objectF (Entries.ofListIns [(("b"), Field.integerF 1), (("a"), Field.integerF 2)])).iterate
        (fun _ _ => true) =
      .ok ((Entries.ofListIns [(("b"), Field.integerF 1), (("a"), Field.integerF 2)]).iterTrace
        (fun _ _ => true)) ∧
    (((Entries.ofListIns [(("b"), Field.integerF 1), (("a"), Field.integerF 2)]).iterTrace
        (fun _ _ => true)).map Prod.fst).Pairwise (fun a b => strLt a b = true) ∧
    Entries.ofListIns [(("a"), Field.integerF 2), (("b"), Field.integerF 1)] =
      Entries.ofListIns [(("b"), Field.integerF 1), (("a"), Field.integerF 2)] ∧
    (Field.objectF (Entries.ofListIns [(("a"), Field.integerF 2), (("b"), Field.integerF 1)])).asJsonString =
      (Field.objectF (Entries.ofListIns [(("b"), Field.integerF 1), (("a"), Field.integerF 2)])).asJsonString ∧
    (Field.objectF (Entries.ofListIns [(("a"), Field.integerF 2), (("b"), Field.integerF 1)])).hash =
      (Field.objectF (Entries.ofListIns [(("b"), Field.integerF 1), (("a"), Field.integerF 2)])).hash :=
  c9_sorted_iteration_order_independence
    [(("b"), Field.integerF 1), (("a"), Field.integerF 2)]
    [(("a"), Field.integerF 2), (("b"), Field.integerF 1)]
    (fun _ _ => true)
    (List.Perm.swap (("a"), Field.integerF 2) (("b"), Field.integerF 1) [])
    (by decide)

/-! ## SAX events and the `ObjectHandler` construction state machine

`ObjectHandler : nlohmann::json_sax` consumes the events below.  The C++
handler mutates container nodes in place through shared pointers (a child
container is attached to its parent at `start_*` time and filled afterwards);
the pure embedding instead keeps a stack of frames holding each open
container and the key under which it was opened, and attaches the completed
container when it is closed (or when the partial tree is materialized).  The
final contents coincide: between opening and closing a child no other
mutation of the parent can occur. -/

inductive Event where
  | startObject
  | endObject
  | key (k : String)
  | startArray
  | endArray
  | boolean (b : Bool)
  | numberInteger (i : Int)
  | numberUnsigned (n : Nat)
  | numberFloat (d : Rat)
  | nullE
  | stringE (s : String)
  | binary
  | parseError (offset : Nat) (token : String) (msg : String)

/-- `static_cast<int64_t>` applied to a `uint64_t` value (two's-complement
wrap modulo `2^64`). -/
def toInt64 (n : Nat) : Int :=
  if n % 2 ^ 64 < 2 ^ 63 then ((n % 2 ^ 64 : Nat) : Int)
  else ((n % 2 ^ 64 : Nat) : Int) - 2 ^ 64

/-- `ObjectHandler::State`. -/
inductive HState where
  | expectRoot
  | expectKeyOrEndObject
  | expectValueOrStartObjectArray
  | expectArrayValueOrEndArray
  | expectFinished
deriving DecidableEq, Repr

/-- An open container on the handler stack. -/
inductive FrameData where
  | fObj (es : Entries)
  | fArr (es : Elems)

/-- A stack entry: the open container and the pending key under which it was
opened (meaningful only when the parent is an object). -/
structure Frame where
  data : FrameData
  attachKey : String

def FrameData.toField : FrameData → Field
  | .fObj es => .objectF es
  | .fArr es => .arrayF es

/-- The `ObjectHandler` member state: `state_`, `stack_`, `key_`, `root_`
(split into the completed root `done` plus the open-frame stack), and the
recorded parse-error data (`error_`, `error_token_`, `error_offset_`). -/
structure HandlerState where
  state : HState
  stack : List Frame
  keyBuf : String
  done : Option Field
  errorMsg : String
  errorToken : String
  errorOffset : Nat

/-- `ObjectHandler()` initial state. -/
def initState : HandlerState :=
  { state := .expectRoot, stack := [], keyBuf := "", done := none,
    errorMsg := "", errorToken := "", errorOffset := 0 }

/-- Outcome of one SAX callback: `ok` = returned `true`; `stop` = returned
`false` (tokenizer must stop); `unreached` = the `NOT_REACHED` assertion;
`ub` = undefined behaviour (`top`/`pop` on an empty `std::stack`); `exn` = a
C++ exception escaping the callback (`Field::checkType`). -/
inductive StepResult where
  | ok (s : HandlerState)
  | stop (s : HandlerState)
  | unreached
  | ub
  | exn (msg : String)

/-- Attach a completed child container to its parent frame (the deferred
counterpart of the `insert`/`append` the C++ code performs at open time). -/
def attachTo (child : Field) (ak : String) (p : Frame) : Frame :=
  match p.data with
  | .fObj es => { data := .fObj (es.insertS ak child), attachKey := p.attachKey }
  | .fArr es => { data := .fArr (es.push child), attachKey := p.attachKey }

/-- `ObjectHandler::start_object`. -/
def startObjectStep (s : HandlerState) : StepResult :=
  match s.state with
  | .expectValueOrStartObjectArray =>
    match s.stack with
    | [] => .ub
    | top :: rest =>
      match top.data with
      | .fObj _ =>
        .ok { s with
              stack := { data := .fObj .nil, attachKey := s.keyBuf } :: top :: rest,
              state := .expectKeyOrEndObject }
      | .fArr _ => .exn (typeErrMsg .tObject .tArray)
  | .expectArrayValueOrEndArray =>
    match s.stack with
    | [] => .ub
    | top :: rest =>
      match top.data with
      | .fArr _ =>
        .ok { s with
              stack := { data := .fObj .nil, attachKey := s.keyBuf } :: top :: rest,
              state := .expectKeyOrEndObject }
      | .fObj _ => .exn (typeErrMsg .tArray .tObject)
  | .expectRoot =>
    .ok { s with
          stack := { data := .fObj .nil, attachKey := s.keyBuf } :: s.stack,
          state := .expectKeyOrEndObject }
  | _ => .unreached

/-- `ObjectHandler::end_object`. -/
def endObjectStep (s : HandlerState) : StepResult :=
  match s.state with
  | .expectKeyOrEndObject =>
    match s.stack with
    | [] => .ub
    | top :: rest =>
      match rest with
      | [] =>
        .ok { s with
              stack := [], done := some top.data.toField,
              state := .expectFinished }
      | p :: rs =>
        match (attachTo top.data.toField top.attachKey p).data with
        | .fObj _ =>
          .ok { s with
                stack := attachTo top.data.toField top.attachKey p :: rs,
                state := .expectKeyOrEndObject }
        | .fArr _ =>
          .ok { s with
                stack := attachTo top.data.toField top.attachKey p :: rs,
                state := .expectArrayValueOrEndArray }
  | _ => .unreached

/-- `ObjectHandler::key`. -/
def keyStep (s : HandlerState) (k : String) : StepResult :=
  match s.state with
  | .expectKeyOrEndObject =>
    .ok { s with keyBuf := k, state := .expectValueOrStartObjectArray }
  | _ => .unreached

/-- `ObjectHandler::start_array`. -/
def startArrayStep (s : HandlerState) : StepResult :=
  match s.state with
  | .expectValueOrStartObjectArray =>
    match s.stack with
    | [] => .ub
    | top :: rest =>
      match top.data with
      | .fObj _ =>
        .ok { s with
              stack := { data := .fArr .nil, attachKey := s.keyBuf } :: top :: rest,
              state := .expectArrayValueOrEndArray }
      | .fArr _ => .exn (typeErrMsg .tObject .tArray)
  | .expectArrayValueOrEndArray =>
    match s.stack with
    | [] => .ub
    | top :: rest =>
      match top.data with
      | .fArr _ =>
        .ok { s with stack := { data := .fArr .nil, attachKey := s.keyBuf } :: top :: rest }
      | .fObj _ => .exn (typeErrMsg .tArray .tObject)
  | .expectRoot =>
    .ok { s with
          stack := { data := .fArr .nil, attachKey := s.keyBuf } :: s.stack,
          state := .expectArrayValueOrEndArray }
  | _ => .unreached

/-- `ObjectHandler::end_array`. -/
def endArrayStep (s : HandlerState) : StepResult :=
  match s.state with
  | .expectArrayValueOrEndArray =>
    match s.stack with
    | [] => .ub
    | top :: rest =>
      match rest with
      | [] =>
        .ok { s with
              stack := [], done := some top.data.toField,
              state := .expectFinished }
      | p :: rs =>
        match (attachTo top.data.toField top.attachKey p).data with
        | .fObj _ =>
          .ok { s with
                stack := attachTo top.data.toField top.attachKey p :: rs,
                state := .expectKeyOrEndObject }
        | .fArr _ =>
          .ok { s with
                stack := attachTo top.data.toField top.attachKey p :: rs,
                state := .expectArrayValueOrEndArray }
  | _ => .unreached

/-- `ObjectHandler::handleValueEvent`. -/
def handleValueStep (s : HandlerState) (v : Field) : StepResult :=
  match s.state with
  | .expectValueOrStartObjectArray =>
    match s.stack with
    | [] => .ub
    | top :: rest =>
      match top.data with
      | .fObj es =>
        .ok { s with
              stack := { data := .fObj (es.insertS s.keyBuf v),
                         attachKey := top.attachKey } :: rest,
              state := .expectKeyOrEndObject }
      | .fArr _ => .exn (typeErrMsg .tObject .tArray)
  | .expectArrayValueOrEndArray =>
    match s.stack with
    | [] => .ub
    | top :: rest =>
      match top.data with
      | .fArr es =>
        .ok { s with
              stack := { data := .fArr (es.push v),
                         attachKey := top.attachKey } :: rest }
      | .fObj _ => .exn (typeErrMsg .tArray .tObject)
  | _ => .stop s

/-- `ObjectHandler::parse_error`: records the error data and returns
`true`. -/
def parseErrorStep (s : HandlerState) (off : Nat) (tok msg : String) : StepResult :=
  .ok { s with errorOffset := off, errorMsg := msg, errorToken := tok }

/-- Dispatch of one SAX event to the handler (the `json_sax` overrides;
the scalar events all funnel into `handleValueEvent` with the corresponding
`Field::createValue`, `binary` always returns `false`). -/
def step (s : HandlerState) : Event → StepResult
  | .startObject => startObjectStep s
  | .endObject => endObjectStep s
  | .key k => keyStep s k
  | .startArray => startArrayStep s
  | .endArray => endArrayStep s
  | .boolean b => handleValueStep s (.booleanF b)
  | .numberInteger i => handleValueStep s (.integerF i)
  | .numberUnsigned n => handleValueStep s (.integerF (toInt64 n))
  | .numberFloat d => handleValueStep s (.doubleF d)
  | .nullE => handleValueStep s .nullF
  | .stringE str => handleValueStep s (.stringF str)
  | .binary => .stop s
  | .parseError off tok msg => parseErrorStep s off tok msg

/-- Outcome of feeding an event stream: the tokenizer honors a `false`
return by stopping; an assertion/exception/UB aborts everything. -/
inductive RunOut where
  | fin (s : HandlerState)
  | thrownOut (msg : String)
  | crashed
  | ubOut

def runEvents (s : HandlerState) : List Event → RunOut
  | [] => .fin s
  | e :: es =>
    match step s e with
    | .ok s' => runEvents s' es
    | .stop s' => .fin s'
    | .exn m => .thrownOut m
    | .unreached => .crashed
    | .ub => .ubOut

/-- The run restricted to all-accepted prefixes (used to define reachable
handler configurations). -/
def runOkFrom (s : HandlerState) : List Event → Option HandlerState
  | [] => some s
  | e :: es =>
    match step s e with
    | .ok s' => runOkFrom s' es
    | _ => none

def runOk (evs : List Event) : Option HandlerState := runOkFrom initState evs

/-- Materialize the tree reachable from the bottom of the open-frame stack
(what `root_` points to in the C++ handler mid-construction). -/
def matGo (f : Field) (ak : String) : List Frame → Field
  | [] => f
  | p :: rest => matGo (attachTo f ak p).data.toField p.attachKey rest

def materialize : List Frame → Option Field
  | [] => none
  | fr :: rest => some (matGo fr.data.toField fr.attachKey rest)

/-- `ObjectHandler::getRoot`. -/
def HandlerState.getRoot (s : HandlerState) : Option Field :=
  match s.done with
  | some f => some f
  | none => materialize s.stack

/-- Outcome of `Factory::loadFromString`: a returned (possibly null) root, a
thrown `Exception`, an assertion failure, or undefined behaviour. -/
inductive LoadOutcome where
  | ret (root : Option Field)
  | thrown (msg : String)
  | crashed
  | ubOut

/-- The message of the `Exception` thrown by `Factory::loadFromString` on a
recorded parse error. -/
def parseErrorExnMsg (off : Nat) (tok msg : String) : String :=
  "JSON supplied is not valid. Error(offset " ++ toString off ++ ", token " ++
    tok ++ "): " ++ msg ++ "\n"

/-- `Factory::loadFromString`, given the event stream the tokenizer produces
for the input: run the handler, throw if a parse error was recorded
(`hasParseError`), otherwise return `getRoot()`. -/
def loadFromEvents (evs : List Event) : LoadOutcome :=
  match runEvents initState evs with
  | .fin st =>
    if st.errorMsg ≠ "" then
      .thrown (parseErrorExnMsg st.errorOffset st.errorToken st.errorMsg)
    else .ret st.getRoot
  | .thrownOut m => .thrown m
  | .crashed => .crashed
  | .ubOut => .ubOut

/-! ## Claim C2: out-of-order events fail fast -/

/-- Construction events (everything except the `binary` rejection and the
tokenizer-level `parse_error` report). -/
def isCoreEvent : Event → Bool
  | .binary => false
  | .parseError _ _ _ => false
  | _ => true

/-- The transition table: the state/event pairs the handler accepts (the
cases of the C++ `switch` statements that return `true` and advance). -/
def permits : HState → Event → Bool
  | .expectRoot, .startObject => true
  | .expectValueOrStartObjectArray, .startObject => true
  | .expectArrayValueOrEndArray, .startObject => true
  | .expectKeyOrEndObject, .endObject => true
  | .expectKeyOrEndObject, .key _ => true
  | .expectRoot, .startArray => true
  | .expectValueOrStartObjectArray, .startArray => true
  | .expectArrayValueOrEndArray, .startArray => true
  | .expectArrayValueOrEndArray, .endArray => true
  | .expectValueOrStartObjectArray, .boolean _ => true
  | .expectValueOrStartObjectArray, .numberInteger _ => true
  | .expectValueOrStartObjectArray, .numberUnsigned _ => true
  | .expectValueOrStartObjectArray, .numberFloat _ => true
  | .expectValueOrStartObjectArray, .nullE => true
  | .expectValueOrStartObjectArray, .stringE _ => true
  | .expectArrayValueOrEndArray, .boolean _ => true
  | .expectArrayValueOrEndArray, .numberInteger _ => true
  | .expectArrayValueOrEndArray, .numberUnsigned _ => true
  | .expectArrayValueOrEndArray, .numberFloat _ => true
  | .expectArrayValueOrEndArray, .nullE => true
  | .expectArrayValueOrEndArray, .stringE _ => true
  | _, _ => false

/-- C2: every construction event delivered in a state the transition table
does not permit fails fast — the handler either trips the `NOT_REACHED`
assertion or returns `false` without modifying its state, and never reports
success; in particular a `key` event in `ExpectArrayValueOrEndArray` hits
the assertion, and a scalar/null value event in `ExpectRoot` or
`ExpectFinished` returns `false` with the state unchanged. -/
theorem c2_out_of_order_events_fail_fast (s : HandlerState) (e : Event)
    (hcore : isCoreEvent e = true) (hperm : permits s.state e = false) :
    (step s e = .unreached ∨ step s e = .stop s) ∧
    (∀ s', step s e ≠ .ok s') ∧
    (s.state = .expectArrayValueOrEndArray → ∀ k, step s (.key k) = .unreached) ∧
    ((s.state = .expectRoot ∨ s.state = .expectFinished) →
      (∀ b, step s (.boolean b) = .stop s) ∧
      (∀ i, step s (.numberInteger i) = .stop s) ∧
      (∀ n, step s (.numberUnsigned n) = .stop s) ∧
      (∀ d, step s (.numberFloat d) = .stop s) ∧
      (step s .nullE = .stop s) ∧
      (∀ str, step s (.stringE str) = .stop s)) := by
  have hmain : step s e = .unreached ∨ step s e = .stop s := by
    cases e <;> cases hst : s.state <;>
      simp_all [permits, isCoreEvent, step, startObjectStep, endObjectStep,
        keyStep, startArrayStep, endArrayStep, handleValueStep]
  refine ⟨hmain, ?_, ?_, ?_⟩
  · intro s' hok
    rcases hmain with hm | hm <;> rw [hok] at hm <;> exact StepResult.noConfusion hm
  · intro hst k
    simp [step, keyStep, hst]
  · intro hst
    rcases hst with hst | hst <;>
      refine ⟨?_, ?_, ?_, ?_, ?_, ?_⟩ <;>
        simp [step, handleValueStep, hst]

theorem c2_out_of_order_events_fail_fast_witness :
    (step initState Event.nullE = .stop initState) ∧
    (step { initState with state := .expectArrayValueOrEndArray }
      (Event.key ("k")) = .unreached) := by
  constructor
  · exact ((c2_out_of_order_events_fail_fast initState Event.nullE rfl
      rfl).2.2.2 (Or.inl rfl)).2.2.2.2.1
  · exact (c2_out_of_order_events_fail_fast
      { initState with state := .expectArrayValueOrEndArray }
      (Event.key ("k")) rfl rfl).2.2.1 rfl ("k")

/-! ## Claim C4: binary events -/

theorem runEvents_append_of_runOkFrom {s s' : HandlerState} {pre : List Event}
    (h : runOkFrom s pre = some s') (post : List Event) :
    runEvents s (pre ++ post) = runEvents s' post := by
  induction pre generalizing s with
  | nil =>
    simp only [runOkFrom] at h
    cases h
    rfl
  | cons e t ih =>
    cases hstep : step s e with
    | ok s1 =>
      simp only [runOkFrom, hstep] at h
      simp only [List.cons_append, runEvents, hstep]
      exact ih h
    | stop s1 => simp [runOkFrom, hstep] at h
    | unreached => simp [runOkFrom, hstep] at h
    | ub => simp [runOkFrom, hstep] at h
    | exn m => simp [runOkFrom, hstep] at h

/-- C4 counterexample: a binary-payload event delivered mid-construction is
not surfaced as a parse error by the factory entry point — the handler
returns `false` with no error recorded, so `loadFromString` returns the
partially built tree (here: the root object opened by `startObject`). -/
theorem c4_counterexample_binary_returns_partial_tree :
    loadFromEvents [Event.startObject, Event.key ("a"), Event.binary] =
      .ret (some (Field.objectF .nil)) := rfl

/-- C4 (amended): a binary-payload event is always rejected by the handler —
it returns `false` in every state, stopping the tokenizer, and never trips
the state-machine assertion — but no parse error is recorded, so after an
accepted prefix with no recorded error the factory entry point returns the
partially built root rather than surfacing a parse error. -/
theorem c4_binary_rejected_but_no_error_surfaced (pre : List Event)
    (s : HandlerState) (hrun : runOk pre = some s) (herr : s.errorMsg = "") :
    (∀ st : HandlerState, step st .binary = .stop st) ∧
    loadFromEvents (pre ++ [Event.binary]) = .ret s.getRoot := by
  refine ⟨fun st => rfl, ?_⟩
  unfold loadFromEvents
  rw [runEvents_append_of_runOkFrom hrun]
  simp [runEvents, step, herr]

theorem c4_binary_rejected_but_no_error_surfaced_witness :
    loadFromEvents ([Event.startObject, Event.key ("a")] ++ [Event.binary]) =
      .ret (HandlerState.getRoot
        { state := .expectValueOrStartObjectArray,
          stack := [{ data := .fObj .nil, attachKey := "" }],
          keyBuf := "a", done := none, errorMsg := "", errorToken := "",
          errorOffset := 0 }) :=
  (c4_binary_rejected_but_no_error_surfaced
    [Event.startObject, Event.key ("a")]
    { state := .expectValueOrStartObjectArray,
      stack := [{ data := .fObj .nil, attachKey := "" }],
      keyBuf := "a", done := none, errorMsg := "", errorToken := "",
      errorOffset := 0 } rfl rfl).2

/-! ## Claim C10: the reachable-configuration invariant -/

/-- The state/stack correspondence: in the two object states the stack top
is an open Object, in the array state it is an open Array (in particular the
stack is non-empty in all three). -/
def Inv (s : HandlerState) : Prop :=
  ((s.state = .expectKeyOrEndObject ∨ s.state = .expectValueOrStartObjectArray) →
    ∃ es ak rest, s.stack = { data := FrameData.fObj es, attachKey := ak } :: rest) ∧
  (s.state = .expectArrayValueOrEndArray →
    ∃ es ak rest, s.stack = { data := FrameData.fArr es, attachKey := ak } :: rest)

/-- A handler configuration reached from the initial state by a sequence of
accepted events. -/
def Reachable (s : HandlerState) : Prop := ∃ evs, runOk evs = some s

theorem inv_initState : Inv initState := by
  constructor <;> intro hc <;> simp [initState] at hc

theorem handleValue_preserves {st : HState} {stk : List Frame} {kb : String}
    {dn : Option Field} {em et : String} {eo : Nat} {v : Field} {s' : HandlerState}
    (hobj : (st = .expectKeyOrEndObject ∨ st = .expectValueOrStartObjectArray) →
      ∃ es ak rest, stk = { data := FrameData.fObj es, attachKey := ak } :: rest)
    (harr : st = .expectArrayValueOrEndArray →
      ∃ es ak rest, stk = { data := FrameData.fArr es, attachKey := ak } :: rest)
    (h : handleValueStep ⟨st, stk, kb, dn, em, et, eo⟩ v = .ok s') : Inv s' := by
  cases st with
  | expectValueOrStartObjectArray =>
    obtain ⟨es, ak, rest, hstk⟩ := hobj (Or.inr rfl)
    subst hstk
    simp only [handleValueStep] at h
    cases h
    exact ⟨fun _ => ⟨es.insertS kb v, ak, rest, rfl⟩, fun hc => by simp at hc⟩
  | expectArrayValueOrEndArray =>
    obtain ⟨es, ak, rest, hstk⟩ := harr rfl
    subst hstk
    simp only [handleValueStep] at h
    cases h
    exact ⟨fun hc => by simp at hc,
      fun _ => ⟨es.push v, ak, rest, rfl⟩⟩
  | expectRoot => simp [handleValueStep] at h
  | expectKeyOrEndObject => simp [handleValueStep] at h
  | expectFinished => simp [handleValueStep] at h

theorem step_preserves_inv {s s' : HandlerState} {e : Event}
    (hInv : Inv s) (h : step s e = .ok s') : Inv s' := by
  obtain ⟨st, stk, kb, dn, em, et, eo⟩ := s
  obtain ⟨hobj, harr⟩ := hInv
  cases e with
  | startObject =>
    cases st with
    | expectRoot =>
      simp only [step, startObjectStep] at h
      cases h
      exact ⟨fun _ => ⟨.nil, kb, stk, rfl⟩, fun hc => by simp at hc⟩
    | expectValueOrStartObjectArray =>
      obtain ⟨es, ak, rest, hstk⟩ := hobj (Or.inr rfl)
      simp only at hstk
      subst hstk
      simp only [step, startObjectStep] at h
      cases h
      exact ⟨fun _ => ⟨.nil, kb, _, rfl⟩, fun hc => by simp at hc⟩
    | expectArrayValueOrEndArray =>
      obtain ⟨es, ak, rest, hstk⟩ := harr rfl
      simp only at hstk
      subst hstk
      simp only [step, startObjectStep] at h
      cases h
      exact ⟨fun _ => ⟨.nil, kb, _, rfl⟩, fun hc => by simp at hc⟩
    | expectKeyOrEndObject => simp [step, startObjectStep] at h
    | expectFinished => simp [step, startObjectStep] at h
  | endObject =>
    cases st with
    | expectKeyOrEndObject =>
      obtain ⟨es, ak, rest, hstk⟩ := hobj (Or.inl rfl)
      simp only at hstk
      subst hstk
      cases rest with
      | nil =>
        simp only [step, endObjectStep] at h
        cases h
        exact ⟨fun hc => by simp at hc, fun hc => by simp at hc⟩
      | cons p rs =>
        simp only [step, endObjectStep] at h
        rcases hfr : attachTo (FrameData.toField (FrameData.fObj es)) ak p with ⟨fd, fak⟩
        rw [hfr] at h
        cases fd with
        | fObj es2 =>
          simp only at h
          cases h
          exact ⟨fun _ => ⟨es2, fak, rs, rfl⟩, fun hc => by simp at hc⟩
        | fArr es2 =>
          simp only at h
          cases h
          exact ⟨fun hc => by simp at hc,
            fun _ => ⟨es2, fak, rs, rfl⟩⟩
    | expectRoot => simp [step, endObjectStep] at h
    | expectValueOrStartObjectArray => simp [step, endObjectStep] at h
    | expectArrayValueOrEndArray => simp [step, endObjectStep] at h
    | expectFinished => simp [step, endObjectStep] at h
  | key k =>
    cases st with
    | expectKeyOrEndObject =>
      obtain ⟨es, ak, rest, hstk⟩ := hobj (Or.inl rfl)
      simp only at hstk
      subst hstk
      simp only [step, keyStep] at h
      cases h
      exact ⟨fun _ => ⟨es, ak, rest, rfl⟩, fun hc => by simp at hc⟩
    | expectRoot => simp [step, keyStep] at h
    | expectValueOrStartObjectArray => simp [step, keyStep] at h
    | expectArrayValueOrEndArray => simp [step, keyStep] at h
    | expectFinished => simp [step, keyStep] at h
  | startArray =>
    cases st with
    | expectRoot =>
      simp only [step, startArrayStep] at h
      cases h
      exact ⟨fun hc => by simp at hc,
        fun _ => ⟨.nil, kb, stk, rfl⟩⟩
    | expectValueOrStartObjectArray =>
      obtain ⟨es, ak, rest, hstk⟩ := hobj (Or.inr rfl)
      simp only at hstk
      subst hstk
      simp only [step, startArrayStep] at h
      cases h
      exact ⟨fun hc => by simp at hc,
        fun _ => ⟨.nil, kb, _, rfl⟩⟩
    | expectArrayValueOrEndArray =>
      obtain ⟨es, ak, rest, hstk⟩ := harr rfl
      simp only at hstk
      subst hstk
      simp only [step, startArrayStep] at h
      cases h
      exact ⟨fun hc => by simp at hc,
        fun _ => ⟨.nil, kb, _, rfl⟩⟩
    | expectKeyOrEndObject => simp [step, startArrayStep] at h
    | expectFinished => simp [step, startArrayStep] at h
  | endArray =>
    cases st with
    | expectArrayValueOrEndArray =>
      obtain ⟨es, ak, rest, hstk⟩ := harr rfl
      simp only at hstk
      subst hstk
      cases rest with
      | nil =>
        simp only [step, endArrayStep] at h
        cases h
        exact ⟨fun hc => by simp at hc, fun hc => by simp at hc⟩
      | cons p rs =>
        simp only [step, endArrayStep] at h
        rcases hfr : attachTo (FrameData.toField (FrameData.fArr es)) ak p with ⟨fd, fak⟩
        rw [hfr] at h
        cases fd with
        | fObj es2 =>
          simp only at h
          cases h
          exact ⟨fun _ => ⟨es2, fak, rs, rfl⟩, fun hc => by simp at hc⟩
        | fArr es2 =>
          simp only at h
          cases h
          exact ⟨fun hc => by simp at hc,
            fun _ => ⟨es2, fak, rs, rfl⟩⟩
    | expectRoot => simp [step, endArrayStep] at h
    | expectValueOrStartObjectArray => simp [step, endArrayStep] at h
    | expectKeyOrEndObject => simp [step, endArrayStep] at h
    | expectFinished => simp [step, endArrayStep] at h
  | boolean b => exact handleValue_preserves hobj harr h
  | numberInteger i => exact handleValue_preserves hobj harr h
  | numberUnsigned n => exact handleValue_preserves hobj harr h
  | numberFloat d => exact handleValue_preserves hobj harr h
  | nullE => exact handleValue_preserves hobj harr h
  | stringE str => exact handleValue_preserves hobj harr h
  | binary => simp [step] at h
  | parseError off tok msg =>
    simp only [step, parseErrorStep] at h
    cases h
    exact ⟨fun hc => hobj hc, fun hc => harr hc⟩

theorem runOkFrom_inv {evs : List Event} : ∀ {s0 s : HandlerState},
    Inv s0 → runOkFrom s0 evs = some s → Inv s := by
  induction evs with
  | nil =>
    intro s0 s h0 h
    simp only [runOkFrom] at h
    cases h
    exact h0
  | cons e t ih =>
    intro s0 s h0 h
    cases hstep : step s0 e with
    | ok s1 =>
      simp only [runOkFrom, hstep] at h
      exact ih (step_preserves_inv h0 hstep) h
    | stop s1 => simp [runOkFrom, hstep] at h
    | unreached => simp [runOkFrom, hstep] at h
    | ub => simp [runOkFrom, hstep] at h
    | exn m => simp [runOkFrom, hstep] at h

/-- C10: in every reachable handler configuration the stack is non-empty
with an Object frame on top in `ExpectKeyOrEndObject` and
`ExpectValueOrStartObjectArray`, and an Array frame on top in
`ExpectArrayValueOrEndArray`; consequently no event can make the handler
throw the container `TypeMismatch` exception or touch an empty stack. -/
theorem c10_reachable_stack_invariant (s : HandlerState) (h : Reachable s) :
    Inv s ∧ ∀ e, (∀ m, step s e ≠ .exn m) ∧ step s e ≠ .ub := by
  obtain ⟨evs, hrun⟩ := h
  have hInv : Inv s := runOkFrom_inv inv_initState hrun
  refine ⟨hInv, ?_⟩
  intro e
  obtain ⟨st, stk, kb, dn, em, et, eo⟩ := s
  obtain ⟨hobj, harr⟩ := hInv
  cases st with
  | expectRoot =>
    cases e <;>
      simp [step, startObjectStep, endObjectStep, keyStep, startArrayStep,
        endArrayStep, handleValueStep, parseErrorStep]
  | expectKeyOrEndObject =>
    obtain ⟨es, ak, rest, hstk⟩ := hobj (Or.inl rfl)
    simp only at hstk
    subst hstk
    cases e <;>
      cases rest <;>
        simp [step, startObjectStep, endObjectStep, keyStep, startArrayStep,
          endArrayStep, handleValueStep, parseErrorStep] <;>
      constructor <;>
        (first
          | (intro m; cases hfr : attachTo (FrameData.toField (FrameData.fObj es)) ak _ with
              | mk fd fak => cases fd <;> simp)
          | (cases hfr : attachTo (FrameData.toField (FrameData.fObj es)) ak _ with
              | mk fd fak => cases fd <;> simp))
  | expectValueOrStartObjectArray =>
    obtain ⟨es, ak, rest, hstk⟩ := hobj (Or.inr rfl)
    simp only at hstk
    subst hstk
    cases e <;>
      simp [step, startObjectStep, endObjectStep, keyStep, startArrayStep,
        endArrayStep, handleValueStep, parseErrorStep]
  | expectArrayValueOrEndArray =>
    obtain ⟨es, ak, rest, hstk⟩ := harr rfl
    simp only at hstk
    subst hstk
    cases e <;>
      cases rest <;>
        simp [step, startObjectStep, endObjectStep, keyStep, startArrayStep,
          endArrayStep, handleValueStep, parseErrorStep] <;>
      constructor <;>
        (first
          | (intro m; cases hfr : attachTo (FrameData.toField (FrameData.fArr es)) ak _ with
              | mk fd fak => cases fd <;> simp)
          | (cases hfr : attachTo (FrameData.toField (FrameData.fArr es)) ak _ with
              | mk fd fak => cases fd <;> simp))
  | expectFinished =>
    cases e <;>
      simp [step, startObjectStep, endObjectStep, keyStep, startArrayStep,
        endArrayStep, handleValueStep, parseErrorStep]

theorem c10_reachable_stack_invariant_witness :
    step { state := .expectKeyOrEndObject,
           stack := [{ data := FrameData.fObj .nil, attachKey := "" }],
           keyBuf := "", done := none, errorMsg := "", errorToken := "",
           errorOffset := 0 } Event.endObject ≠ .ub :=
  ((c10_reachable_stack_invariant
    { state := .expectKeyOrEndObject,
      stack := [{ data := FrameData.fObj .nil, attachKey := "" }],
      keyBuf := "", done := none, errorMsg := "", errorToken := "",
      errorOffset := 0 } ⟨[Event.startObject], rfl⟩).2 Event.endObject).2

/-! ## The tokenizer

Modelled from the spec: the raw lexical scanning of JSON text into SAX
events is performed by `nlohmann::json::sax_parse`, an external collaborator
whose sources are not part of this repository; the spec fixes only its event
contract (§6): it pushes the events of the stream to the handler, honors a
`false` return by stopping, and reports a malformed input through a single
`parseError(offset, token, message)` event with a non-empty human-readable
message.  The lexer/eventizer below implements that contract for the JSON
fragment the engine itself emits (objects, arrays, strings with escapes,
integers, booleans, null); float literals and the exact offset/token values
of error reports are not modelled — no claim verified here depends on
them. -/

inductive Token where
  | lbrace | rbrace | lbrack | rbrack | colon | comma
  | tTrue | tFalse | tNull
  | str (s : String)
  | num (neg : Bool) (n : Nat)

def hexVal (c : Char) : Option Nat :=
  if 48 ≤ c.toNat ∧ c.toNat ≤ 57 then some (c.toNat - 48)
  else if 97 ≤ c.toNat ∧ c.toNat ≤ 102 then some (c.toNat - 87)
  else if 65 ≤ c.toNat ∧ c.toNat ≤ 70 then some (c.toNat - 55)
  else none

def unescapeChar (c : Char) : Option Char :=
  if c = '"' then some '"'
  else if c = '\\' then some '\\'
  else if c = '/' then some '/'
  else if c = 'b' then some (Char.ofNat 8)
  else if c = 'f' then some (Char.ofNat 12)
  else if c = 'n' then some '\n'
  else if c = 'r' then some (Char.ofNat 13)
  else if c = 't' then some '\t'
  else none

def isWs (c : Char) : Bool :=
  c = ' ' || c = '\t' || c = '\n' || c = Char.ofNat 13

/-- Lexer modes: scanning at top level, inside a string (accumulated
characters reversed), after a backslash, inside a `\u` escape, inside a
number, or inside a `true`/`false`/`null` literal. -/
inductive LexMode where
  | top
  | inStr (acc : List Char)
  | inEsc (acc : List Char)
  | inHex (acc : List Char) (need : Nat) (val : Nat)
  | inNum (neg : Bool) (val : Nat)
  | inLit (rest : List Char) (tok : Token)

/-- Dispatch of a single top-level character (shared by the fresh-token and
number-exit paths). -/
def lexDisp (c : Char) (k : LexMode → Option (List Token)) : Option (List Token) :=
  if c = '{' then (Token.lbrace :: ·) <$> k .top
  else if c = '}' then (Token.rbrace :: ·) <$> k .top
  else if c = '[' then (Token.lbrack :: ·) <$> k .top
  else if c = ']' then (Token.rbrack :: ·) <$> k .top
  else if c = ':' then (Token.colon :: ·) <$> k .top
  else if c = ',' then (Token.comma :: ·) <$> k .top
  else if c = '"' then k (.inStr [])
  else if c = '-' then k (.inNum true 0)
  else if c.isDigit then k (.inNum false (c.toNat - 48))
  else if c = 't' then k (.inLit [ 'r', 'u', 'e' ] .tTrue)
  else if c = 'f' then k (.inLit [ 'a', 'l', 's', 'e' ] .tFalse)
  else if c = 'n' then k (.inLit [ 'u', 'l', 'l' ] .tNull)
  else if isWs c then k .top
  else none

def lexGo : LexMode → List Char → Option (List Token)
  | .top, [] => some []
  | .top, c :: cs => lexDisp c (fun m => lexGo m cs)
  | .inStr _, [] => none
  | .inStr acc, c :: cs =>
    if c = '"' then (Token.str (String.mk acc.reverse) :: ·) <$> lexGo .top cs
    else if c = '\\' then lexGo (.inEsc acc) cs
    else if 32 ≤ c.toNat then lexGo (.inStr (c :: acc)) cs
    else none
  | .inEsc _, [] => none
  | .inEsc acc, c :: cs =>
    if c = 'u' then lexGo (.inHex acc 4 0) cs
    else
      match unescapeChar c with
      | some d => lexGo (.inStr (d :: acc)) cs
      | none => none
  | .inHex _ _ _, [] => none
  | .inHex acc need val, c :: cs =>
    match hexVal c with
    | some v =>
      if need ≤ 1 then lexGo (.inStr (Char.ofNat (val * 16 + v) :: acc)) cs
      else lexGo (.inHex acc (need - 1) (val * 16 + v)) cs
    | none => none
  | .inNum neg val, [] => some [Token.num neg val]
  | .inNum neg val, c :: cs =>
    if c.isDigit then lexGo (.inNum neg (val * 10 + (c.toNat - 48))) cs
    else (Token.num neg val :: ·) <$> lexDisp c (fun m => lexGo m cs)
  | .inLit _ _, [] => none
  | .inLit l tok, c :: cs =>
    match l with
    | [] => none
    | [r] => if c = r then (tok :: ·) <$> lexGo .top cs else none
    | r :: r2 :: rs => if c = r then lexGo (.inLit (r2 :: rs) tok) cs else none

/-- The event for a number token (nlohmann delivers negative literals as
`number_integer` and non-negative ones as `number_unsigned`). -/
def numEvent (neg : Bool) (n : Nat) : Event :=
  if neg then .numberInteger (-(n : Int)) else .numberUnsigned n

/-- Grammar phases of the eventizer (the LL parser driving the SAX events):
expecting a value, a value or `]`, a key or `}`, a `:`, or sitting after a
completed value. -/
inductive Ph where
  | pV | pVorClose | pKeyOrClose | pColon | pAfter

/-- Container context stack of the eventizer. -/
inductive Ctx where
  | inObj | inArr

/-- Events for a single value-starting token (continuation-passing so that
`evtz` stays structurally recursive). -/
def evtzValD (t : Token) (st : List Ctx)
    (k : Ph → List Ctx → Option (List Event)) : Option (List Event) :=
  match t with
  | .lbrace => (Event.startObject :: ·) <$> k .pKeyOrClose (.inObj :: st)
  | .lbrack => (Event.startArray :: ·) <$> k .pVorClose (.inArr :: st)
  | .tTrue => (Event.boolean true :: ·) <$> k .pAfter st
  | .tFalse => (Event.boolean false :: ·) <$> k .pAfter st
  | .tNull => (Event.nullE :: ·) <$> k .pAfter st
  | .str s => (Event.stringE s :: ·) <$> k .pAfter st
  | .num neg n => (numEvent neg n :: ·) <$> k .pAfter st
  | _ => none

/-- The eventizer: turns the token stream into the SAX event stream,
validating the JSON grammar. -/
def evtz : List Token → Ph → List Ctx → Option (List Event)
  | [], .pAfter, [] => some []
  | [], _, _ => none
  | t :: ts, .pV, st => evtzValD t st (fun ph st' => evtz ts ph st')
  | t :: ts, .pVorClose, st =>
    match t with
    | .rbrack =>
      match st with
      | .inArr :: st' => (Event.endArray :: ·) <$> evtz ts .pAfter st'
      | _ => none
    | _ => evtzValD t st (fun ph st' => evtz ts ph st')
  | t :: ts, .pKeyOrClose, st =>
    match t, st with
    | .str s, _ => (Event.key s :: ·) <$> evtz ts .pColon st
    | .rbrace, .inObj :: st' => (Event.endObject :: ·) <$> evtz ts .pAfter st'
    | _, _ => none
  | t :: ts, .pColon, st =>
    match t with
    | .colon => evtz ts .pV st
    | _ => none
  | t :: ts, .pAfter, st =>
    match t, st with
    | .comma, .inObj :: st' => evtz ts .pKeyOrClose (.inObj :: st')
    | .comma, .inArr :: st' => evtz ts .pV (.inArr :: st')
    | .rbrace, .inObj :: st' => (Event.endObject :: ·) <$> evtz ts .pAfter st'
    | .rbrack, .inArr :: st' => (Event.endArray :: ·) <$> evtz ts .pAfter st'
    | _, _ => none

/-- Modelled from the spec: the full tokenizer — on well-formed input the
event stream, on malformed input a single `parseError` event with a
non-empty message (the offset/token details are schematic). -/
def saxParse (s : String) : List Event :=
  match lexGo .top s.data with
  | none => [Event.parseError s.length ("") ("syntax error")]
  | some toks =>
    match evtz toks .pV [] with
    | none => [Event.parseError s.length ("") ("syntax error")]
    | some evs => evs

/-- `Factory::loadFromString` on input text. -/
def loadFromString (s : String) : LoadOutcome := loadFromEvents (saxParse s)

/-! ## Claim C1: parse-failure surfacing at the factory boundary -/

/-- C1 counterexample: the claim says the parse failure is surfaced as a
returned structured error value, not thrown across the construction
boundary; but on the malformed input `(spec example) open-brace "a": close-brace`
`Factory::loadFromString` throws an `Exception` (whose what-string is a
single formatted message), so the failure is thrown, not returned. -/
theorem c1_counterexample_parse_error_thrown :
    loadFromString ("\x7b\"a\": \x7d") =
      .thrown ("JSON supplied is not valid. Error(offset 7, token ): syntax error\n") := rfl

/-- C1 (amended): for every input text whose tokenization reports a parse
failure (with a non-empty message), the handler records byte offset,
offending token and message, and the factory entry point throws an
`Exception` whose message embeds all three; no root node is returned. -/
theorem c1_parse_error_thrown_with_structured_data (s : String)
    (off : Nat) (tok msg : String)
    (hsax : saxParse s = [Event.parseError off tok msg]) (hmsg : msg ≠ "") :
    loadFromString s = .thrown (parseErrorExnMsg off tok msg) ∧
    ∀ r, loadFromString s ≠ .ret r := by
  have h1 : loadFromString s = .thrown (parseErrorExnMsg off tok msg) := by
    unfold loadFromString loadFromEvents
    rw [hsax]
    simp [runEvents, step, parseErrorStep, initState, HandlerState.getRoot, hmsg]
  exact ⟨h1, fun r hr => by rw [h1] at hr; exact LoadOutcome.noConfusion hr⟩

theorem c1_parse_error_thrown_with_structured_data_witness :
    loadFromString ("\x7b\"a\": \x7d") =
      .thrown (parseErrorExnMsg 7 ("") ("syntax error")) :=
  (c1_parse_error_thrown_with_structured_data ("\x7b\"a\": \x7d") 7 ("")
    ("syntax error") rfl (by decide)).1

/-! ## Claim C8: round-trip through canonical text

Helper layer: a generic simultaneous induction principle for the mutual tree
type, well-formedness of trees (`goodF`), the token/event streams of a tree,
and arithmetic/lexing lemmas. -/

mutual

theorem fieldIndF {mF : Field → Prop} {mE : Elems → Prop} {mN : Entries → Prop}
    (h1 : mF .nullF) (h2 : ∀ b, mF (.booleanF b)) (h3 : ∀ i, mF (.integerF i))
    (h4 : ∀ d, mF (.doubleF d)) (h5 : ∀ s, mF (.stringF s))
    (h6 : ∀ es, mE es → mF (.arrayF es)) (h7 : ∀ es, mN es → mF (.objectF es))
    (h8 : mE .nil) (h9 : ∀ h t, mF h → mE t → mE (.cons h t))
    (h10 : mN .nil) (h11 : ∀ k v t, mF v → mN t → mN (.cons k v t)) :
    ∀ f, mF f
  | .nullF => h1
  | .booleanF b => h2 b
  | .integerF i => h3 i
  | .doubleF d => h4 d
  | .stringF s => h5 s
  | .arrayF es => h6 es (elemsIndF h1 h2 h3 h4 h5 h6 h7 h8 h9 h10 h11 es)
  | .objectF es => h7 es (entriesIndF h1 h2 h3 h4 h5 h6 h7 h8 h9 h10 h11 es)

theorem elemsIndF {mF : Field → Prop} {mE : Elems → Prop} {mN : Entries → Prop}
    (h1 : mF .nullF) (h2 : ∀ b, mF (.booleanF b)) (h3 : ∀ i, mF (.integerF i))
    (h4 : ∀ d, mF (.doubleF d)) (h5 : ∀ s, mF (.stringF s))
    (h6 : ∀ es, mE es → mF (.arrayF es)) (h7 : ∀ es, mN es → mF (.objectF es))
    (h8 : mE .nil) (h9 : ∀ h t, mF h → mE t → mE (.cons h t))
    (h10 : mN .nil) (h11 : ∀ k v t, mF v → mN t → mN (.cons k v t)) :
    ∀ es, mE es
  | .nil => h8
  | .cons h t =>
    h9 h t (fieldIndF h1 h2 h3 h4 h5 h6 h7 h8 h9 h10 h11 h)
      (elemsIndF h1 h2 h3 h4 h5 h6 h7 h8 h9 h10 h11 t)

theorem entriesIndF {mF : Field → Prop} {mE : Elems → Prop} {mN : Entries → Prop}
    (h1 : mF .nullF) (h2 : ∀ b, mF (.booleanF b)) (h3 : ∀ i, mF (.integerF i))
    (h4 : ∀ d, mF (.doubleF d)) (h5 : ∀ s, mF (.stringF s))
    (h6 : ∀ es, mE es → mF (.arrayF es)) (h7 : ∀ es, mN es → mF (.objectF es))
    (h8 : mE .nil) (h9 : ∀ h t, mF h → mE t → mE (.cons h t))
    (h10 : mN .nil) (h11 : ∀ k v t, mF v → mN t → mN (.cons k v t)) :
    ∀ es, mN es
  | .nil => h10
  | .cons k v t =>
    h11 k v t (fieldIndF h1 h2 h3 h4 h5 h6 h7 h8 h9 h10 h11 v)
      (entriesIndF h1 h2 h3 h4 h5 h6 h7 h8 h9 h10 h11 t)

end

/-- `int64_t` range check. -/
def intInRange (i : Int) : Bool := decide (-(2 ^ 63) ≤ i ∧ i < 2 ^ 63)

/-! Well-formedness for the round-trip claim (`goodF`): no floating-point
payloads, no empty containers (they serialize to `null`), integers within the
`int64_t` range, object keys free of embedded NUL bytes (serialization
truncates a key at its first NUL, so a NUL-bearing key cannot survive a
round trip), and object entries in the strictly sorted representation the
construction machinery produces. -/

mutual

def goodF : Field → Bool
  | .nullF => true
  | .booleanF _ => true
  | .integerF i => intInRange i
  | .doubleF _ => false
  | .stringF _ => true
  | .arrayF .nil => false
  | .arrayF (.cons h t) => goodF h && goodElems t
  | .objectF .nil => false
  | .objectF (.cons k v t) =>
    nulFree k.data && (Entries.sortedB (.cons k v t) && (goodF v && goodEntries t))

def goodElems : Elems → Bool
  | .nil => true
  | .cons h t => goodF h && goodElems t

def goodEntries : Entries → Bool
  | .nil => true
  | .cons k v t => nulFree k.data && (goodF v && goodEntries t)

end

theorem goodF_object_cons (k : String) (v : Field) (t : Entries) :
    goodF (.objectF (.cons k v t)) =
      (nulFree k.data && (Entries.sortedB (.cons k v t) &&
        (goodF v && goodEntries t))) := by
  simp [goodF]

theorem goodEntries_cons (k : String) (v : Field) (t : Entries) :
    goodEntries (.cons k v t) = (nulFree k.data && (goodF v && goodEntries t)) := by
  simp [goodEntries]

/-! The token stream the lexer produces for the canonical text of a tree
(`toksF`). -/

mutual

def toksF : Field → List Token
  | .nullF => [.tNull]
  | .booleanF true => [.tTrue]
  | .booleanF false => [.tFalse]
  | .integerF i => [.num (decide (i < 0)) i.natAbs]
  | .doubleF _ => []
  | .stringF s => [.str s]
  | .arrayF .nil => [.tNull]
  | .arrayF (.cons h t) => .lbrack :: (toksElems (.cons h t) ++ [.rbrack])
  | .objectF .nil => [.tNull]
  | .objectF (.cons k v t) => .lbrace :: (toksEntries (.cons k v t) ++ [.rbrace])

def toksElems : Elems → List Token
  | .nil => []
  | .cons h .nil => toksF h
  | .cons h (.cons h2 t) => toksF h ++ .comma :: toksElems (.cons h2 t)

def toksEntries : Entries → List Token
  | .nil => []
  | .cons k v .nil => .str k :: .colon :: toksF v
  | .cons k v (.cons k2 v2 t) =>
    (.str k :: .colon :: toksF v) ++ .comma :: toksEntries (.cons k2 v2 t)

end

/-! The SAX event stream of the canonical text of a tree (`evF`). -/

mutual

def evF : Field → List Event
  | .nullF => [.nullE]
  | .booleanF b => [.boolean b]
  | .integerF i => if i < 0 then [.numberInteger i] else [.numberUnsigned i.toNat]
  | .doubleF d => [.numberFloat d]
  | .stringF s => [.stringE s]
  | .arrayF .nil => [.nullE]
  | .arrayF (.cons h t) => .startArray :: (evElems (.cons h t) ++ [.endArray])
  | .objectF .nil => [.nullE]
  | .objectF (.cons k v t) => .startObject :: (evEntries (.cons k v t) ++ [.endObject])

def evElems : Elems → List Event
  | .nil => []
  | .cons h t => evF h ++ evElems t

def evEntries : Entries → List Event
  | .nil => []
  | .cons k v t => .key k :: (evF v ++ evEntries t)

end

/-! ### Entries append / ordered-fold lemmas -/

def Entries.appendEnt : Entries → Entries → Entries
  | .nil, e => e
  | .cons k v t, e => .cons k v (Entries.appendEnt t e)

/-- Folding `insert` over an entry list in order (what the construction run
performs when rebuilding an object). -/
def Entries.insFold (obj : Entries) : Entries → Entries
  | .nil => obj
  | .cons k v t => Entries.insFold (obj.insertS k v) t

theorem appendEnt_nil (es : Entries) : es.appendEnt .nil = es := by
  induction es using entriesInd with
  | hnil => rfl
  | hcons k v t ih => simp [Entries.appendEnt, ih]

theorem keys_appendEnt (a b : Entries) :
    (a.appendEnt b).keys = a.keys ++ b.keys := by
  induction a using entriesInd with
  | hnil => rfl
  | hcons k v t ih => simp [Entries.appendEnt, Entries.keys, ih]

theorem insertS_gt_all {acc : Entries} {k : String} (v : Field)
    (h : ∀ x ∈ acc.keys, strLt x k = true) :
    acc.insertS k v = acc.appendEnt (.cons k v .nil) := by
  induction acc using entriesInd with
  | hnil => rfl
  | hcons k0 v0 t ih =>
    have h0 : strLt k0 k = true := h k0 (by simp [Entries.keys])
    have hnlt : strLt k k0 = false := strLt_asymm h0
    have hih : Entries.insertS k v t = t.appendEnt (.cons k v .nil) :=
      ih (fun x hx => h x (by simp [Entries.keys, hx]))
    simp [Entries.insertS, hnlt, h0, Entries.appendEnt, hih]

theorem appendEnt_assoc (a b c : Entries) :
    (a.appendEnt b).appendEnt c = a.appendEnt (b.appendEnt c) := by
  induction a using entriesInd with
  | hnil => rfl
  | hcons k v t ih => simp [Entries.appendEnt, ih]

theorem insFold_append {acc : Entries} : ∀ {es : Entries},
    SortedP (acc.appendEnt es) → acc.insFold es = acc.appendEnt es := by
  intro es
  induction es using entriesInd generalizing acc with
  | hnil => intro _; simp [Entries.insFold, appendEnt_nil]
  | hcons k v t ih =>
    intro hs
    have hlt : ∀ x ∈ acc.keys, strLt x k = true := by
      intro x hx
      unfold SortedP at hs
      rw [keys_appendEnt, List.pairwise_append] at hs
      exact hs.2.2 x hx k (by simp [Entries.keys])
    have hstep : acc.insertS k v = acc.appendEnt (.cons k v .nil) :=
      insertS_gt_all v hlt
    have hassoc : ∀ b : Entries,
        (acc.appendEnt (.cons k v .nil)).appendEnt b =
          acc.appendEnt (.cons k v b) := by
      intro b
      rw [appendEnt_assoc]
      rfl
    have hrec : Entries.insFold (acc.insertS k v) t =
        (acc.appendEnt (.cons k v .nil)).appendEnt t := by
      rw [hstep]
      exact ih (by rw [hassoc]; exact hs)
    simp only [Entries.insFold]
    rw [hrec, hassoc]

theorem sortedB_sortedP {es : Entries} (h : es.sortedB = true) : SortedP es := by
  induction es using entriesInd with
  | hnil => simp [SortedP, Entries.keys]
  | hcons k v t ih =>
    cases t using entriesInd with
    | hnil => simp [SortedP, Entries.keys]
    | hcons k2 v2 t2 =>
      simp only [Entries.sortedB, Bool.and_eq_true] at h
      have hp := ih h.2
      unfold SortedP at hp ⊢
      simp only [Entries.keys, List.pairwise_cons] at hp ⊢
      refine ⟨?_, hp⟩
      intro x hx
      rcases List.mem_cons.mp hx with hx | hx
      · subst hx; exact h.1
      · exact strLt_trans h.1 (hp.1 x hx)

theorem insFold_nil_of_sortedB {es : Entries} (h : es.sortedB = true) :
    Entries.insFold .nil es = es :=
  insFold_append (by simpa [Entries.appendEnt] using sortedB_sortedP h)

/-! ### Elems append lemmas -/

theorem appendE_nil (es : Elems) : es.appendE .nil = es := by
  induction es using elemsInd with
  | hnil => rfl
  | hcons h t ih => simp [Elems.appendE, ih]

theorem push_appendE (arr : Elems) (x : Field) : ∀ t : Elems,
    (arr.push x).appendE t = arr.appendE (.cons x t) := by
  induction arr using elemsInd with
  | hnil => intro t; rfl
  | hcons h t0 ih => intro t; simp [Elems.push, Elems.appendE, ih]

theorem push_eq_appendE (arr : Elems) (x : Field) :
    arr.push x = arr.appendE (.cons x .nil) := by
  have := push_appendE arr x .nil
  rw [appendE_nil] at this
  exact this

/-! ### Decimal digit lemmas -/

def digitsVal (acc : Nat) (l : List Char) : Nat :=
  l.foldl (fun a c => a * 10 + (c.toNat - 48)) acc

theorem decDigitChar_toNat {d : Nat} (h : d < 10) : (decDigitChar d).toNat = 48 + d := by
  interval_cases d <;> decide

theorem decDigitChar_isDigit {d : Nat} (h : d < 10) : (decDigitChar d).isDigit = true := by
  interval_cases d <;> decide

theorem natDigitsAux_acc (n : Nat) : ∀ acc, natDigitsAux n acc = natDigitsAux n [] ++ acc := by
  induction n using Nat.strong_induction_on with
  | _ n ih =>
    intro acc
    by_cases h : n < 10
    · rw [natDigitsAux]
      conv_rhs => rw [natDigitsAux]
      simp [h]
    · rw [natDigitsAux]
      conv_rhs => rw [natDigitsAux]
      simp only [h, dif_neg, not_false_iff]
      rw [ih (n / 10) (Nat.div_lt_self (by omega) (by omega)),
        ih (n / 10) (Nat.div_lt_self (by omega) (by omega))
          (decDigitChar (n % 10) :: [])]
      simp

theorem natDigits_all_digits (n : Nat) : ∀ c ∈ natDigits n, c.isDigit = true := by
  unfold natDigits
  induction n using Nat.strong_induction_on with
  | _ n ih =>
    by_cases h : n < 10
    · rw [natDigitsAux]
      simp only [h, dif_pos]
      intro c hc
      rcases List.mem_singleton.mp hc with rfl
      exact decDigitChar_isDigit h
    · rw [natDigitsAux]
      simp only [h, dif_neg, not_false_iff]
      rw [natDigitsAux_acc]
      intro c hc
      rcases List.mem_append.mp hc with hc | hc
      · exact ih (n / 10) (Nat.div_lt_self (by omega) (by omega)) c hc
      · rcases List.mem_singleton.mp hc with rfl
        exact decDigitChar_isDigit (by omega)

theorem digitsVal_append (acc : Nat) (a b : List Char) :
    digitsVal acc (a ++ b) = digitsVal (digitsVal acc a) b := by
  simp [digitsVal, List.foldl_append]

theorem natDigits_val (n : Nat) : digitsVal 0 (natDigits n) = n := by
  unfold natDigits
  induction n using Nat.strong_induction_on with
  | _ n ih =>
    by_cases h : n < 10
    · rw [natDigitsAux]
      simp only [h, dif_pos]
      simp [digitsVal, decDigitChar_toNat h]
    · rw [natDigitsAux]
      simp only [h, dif_neg, not_false_iff]
      rw [natDigitsAux_acc, digitsVal_append,
        ih (n / 10) (Nat.div_lt_self (by omega) (by omega))]
      simp [digitsVal, decDigitChar_toNat (show n % 10 < 10 by omega)]
      omega

theorem natDigits_ne_nil (n : Nat) : natDigits n ≠ [] := by
  unfold natDigits
  rw [natDigitsAux]
  by_cases h : n < 10
  · simp [h]
  · simp only [h, dif_neg, not_false_iff]
    rw [natDigitsAux_acc]
    simp

/-! ### `toInt64` arithmetic -/

theorem toInt64_toNat {i : Int} (h1 : 0 ≤ i) (h2 : i < 2 ^ 63) :
    toInt64 i.toNat = i := by
  unfold toInt64
  have hm : i.toNat % 2 ^ 64 = i.toNat := Nat.mod_eq_of_lt (by omega)
  rw [hm]
  have : i.toNat < 2 ^ 63 := by omega
  rw [if_pos this]
  omega

/-! ### Lexer lemmas -/

/-- Single-step unfoldings of the lexer on concrete delimiter characters. -/
theorem lexGo_lbrace (rest : List Char) :
    lexGo .top ('{' :: rest) = (Token.lbrace :: ·) <$> lexGo .top rest := rfl

theorem lexGo_rbrace (rest : List Char) :
    lexGo .top ('}' :: rest) = (Token.rbrace :: ·) <$> lexGo .top rest := rfl

theorem lexGo_lbrack (rest : List Char) :
    lexGo .top ('[' :: rest) = (Token.lbrack :: ·) <$> lexGo .top rest := rfl

theorem lexGo_rbrack (rest : List Char) :
    lexGo .top (']' :: rest) = (Token.rbrack :: ·) <$> lexGo .top rest := rfl

theorem lexGo_colon (rest : List Char) :
    lexGo .top (':' :: rest) = (Token.colon :: ·) <$> lexGo .top rest := rfl

theorem lexGo_comma (rest : List Char) :
    lexGo .top (',' :: rest) = (Token.comma :: ·) <$> lexGo .top rest := rfl

theorem lexGo_null (rest : List Char) :
    lexGo .top ('n' :: 'u' :: 'l' :: 'l' :: rest) =
      (Token.tNull :: ·) <$> lexGo .top rest := rfl

theorem lexGo_true (rest : List Char) :
    lexGo .top ('t' :: 'r' :: 'u' :: 'e' :: rest) =
      (Token.tTrue :: ·) <$> lexGo .top rest := rfl

theorem lexGo_false (rest : List Char) :
    lexGo .top ('f' :: 'a' :: 'l' :: 's' :: 'e' :: rest) =
      (Token.tFalse :: ·) <$> lexGo .top rest := rfl

theorem hexVal_hexDigitChar {v : Nat} (h : v < 16) :
    hexVal (hexDigitChar v) = some v := by
  interval_cases v <;> decide

theorem lexGo_escapeChar (c : Char) (acc rest : List Char) :
    lexGo (.inStr acc) (escapeChar c ++ rest) = lexGo (.inStr (c :: acc)) rest := by
  by_cases h1 : c = '"'
  · subst h1; rfl
  · by_cases h2 : c = '\\'
    · subst h2; rfl
    · by_cases h3 : c = Char.ofNat 8
      · subst h3; rfl
      · by_cases h4 : c = Char.ofNat 12
        · subst h4; rfl
        · by_cases h5 : c = '\n'
          · subst h5; rfl
          · by_cases h6 : c = Char.ofNat 13
            · subst h6; rfl
            · by_cases h7 : c = '\t'
              · subst h7; rfl
              · by_cases h8 : c.toNat < 32
                · have he : escapeChar c =
                      [ '\\', 'u', '0', '0', hexDigitChar (c.toNat / 16),
                        hexDigitChar (c.toNat % 16) ] := by
                    simp [escapeChar, h1, h2, h3, h4, h5, h6, h7, h8]
                  rw [he]
                  show lexGo (.inHex acc 2 0)
                      (hexDigitChar (c.toNat / 16) :: hexDigitChar (c.toNat % 16) :: rest) = _
                  have hv1 := hexVal_hexDigitChar (show c.toNat / 16 < 16 by omega)
                  have hv2 := hexVal_hexDigitChar (show c.toNat % 16 < 16 by omega)
                  simp only [lexGo, hv1, hv2]
                  norm_num
                  rw [show c.toNat / 16 * 16 + c.toNat % 16 = c.toNat by omega,
                    Char.ofNat_toNat]
                · have he : escapeChar c = [c] := by
                    simp [escapeChar, h1, h2, h3, h4, h5, h6, h7, h8]
                  rw [he]
                  have hq : ¬ c = '"' := h1
                  have hb : ¬ c = '\\' := h2
                  have hge : 32 ≤ c.toNat := by omega
                  simp [lexGo, hq, hb, hge]

theorem lexGo_escapeStr (sd : List Char) : ∀ (acc rest : List Char),
    lexGo (.inStr acc) (escapeStr sd ++ rest) =
      lexGo (.inStr (sd.reverse ++ acc)) rest := by
  induction sd with
  | nil => intro acc rest; simp [escapeStr]
  | cons c t ih =>
    intro acc rest
    show lexGo (.inStr acc) ((escapeChar c ++ escapeStr t) ++ rest) = _
    rw [List.append_assoc, lexGo_escapeChar, ih]
    simp

theorem string_mk_data (s : String) : String.mk s.data = s := by cases s; rfl

theorem lexGo_strToken (s : String) (rest : List Char) :
    lexGo .top ('"' :: (escapeStr s.data ++ ('"' :: rest))) =
      (Token.str s :: ·) <$> lexGo .top rest := by
  show lexGo (.inStr []) (escapeStr s.data ++ ('"' :: rest)) = _
  rw [lexGo_escapeStr]
  have hstep : lexGo (.inStr (s.data.reverse ++ [])) ('"' :: rest) =
      (Token.str (String.mk (s.data.reverse ++ []).reverse) :: ·) <$> lexGo .top rest := rfl
  rw [hstep]
  simp [string_mk_data]

/-- The tail of the input after a number must not begin with a digit (true
of all canonical-text positions following a number). -/
def headNotDigit : List Char → Prop
  | [] => True
  | r :: _ => r.isDigit = false

theorem lexGo_inNum (ds : List Char) : ∀ (neg : Bool) (a : Nat) (rest : List Char),
    (∀ c ∈ ds, c.isDigit = true) → headNotDigit rest →
    lexGo (.inNum neg a) (ds ++ rest) =
      (Token.num neg (digitsVal a ds) :: ·) <$> lexGo .top rest := by
  induction ds with
  | nil =>
    intro neg a rest hds hrest
    cases rest with
    | nil => rfl
    | cons r rs =>
      have hr : r.isDigit = false := hrest
      show lexGo (.inNum neg a) (r :: rs) = _
      simp [lexGo, hr, digitsVal]
  | cons d ds' ih =>
    intro neg a rest hds hrest
    have hd : d.isDigit = true := hds d (by simp)
    show lexGo (.inNum neg a) (d :: (ds' ++ rest)) = _
    simp only [lexGo, hd, if_true]
    rw [ih neg (a * 10 + (d.toNat - 48)) rest
      (fun c hc => hds c (by simp [hc])) hrest]
    rfl

theorem digit_head_lexDisp {d : Char} (hd : d.isDigit = true)
    (k : LexMode → Option (List Token)) :
    lexDisp d k = k (.inNum false (d.toNat - 48)) := by
  have e1 : ¬ d = '{' := fun he => by subst he; exact absurd hd (by decide)
  have e2 : ¬ d = '}' := fun he => by subst he; exact absurd hd (by decide)
  have e3 : ¬ d = '[' := fun he => by subst he; exact absurd hd (by decide)
  have e4 : ¬ d = ']' := fun he => by subst he; exact absurd hd (by decide)
  have e5 : ¬ d = ':' := fun he => by subst he; exact absurd hd (by decide)
  have e6 : ¬ d = ',' := fun he => by subst he; exact absurd hd (by decide)
  have e7 : ¬ d = '"' := fun he => by subst he; exact absurd hd (by decide)
  have e8 : ¬ d = '-' := fun he => by subst he; exact absurd hd (by decide)
  simp [lexDisp, e1, e2, e3, e4, e5, e6, e7, e8, hd]

theorem lexGo_natDigits_top (n : Nat) (rest : List Char) (hrest : headNotDigit rest) :
    lexGo .top (natDigits n ++ rest) =
      (Token.num false n :: ·) <$> lexGo .top rest := by
  rcases hnd : natDigits n with _ | ⟨d, ds⟩
  · exact absurd hnd (natDigits_ne_nil n)
  · have hall := natDigits_all_digits n
    rw [hnd] at hall
    have hd : d.isDigit = true := hall d (by simp)
    show lexGo .top (d :: (ds ++ rest)) = _
    show lexDisp d (fun m => lexGo m (ds ++ rest)) = _
    rw [digit_head_lexDisp hd]
    rw [lexGo_inNum ds false (d.toNat - 48) rest
      (fun c hc => hall c (by simp [hc])) hrest]
    have hv : digitsVal (d.toNat - 48) ds = n := by
      have := natDigits_val n
      rw [hnd] at this
      simpa [digitsVal] using this
    rw [hv]

theorem lexGo_intChars (i : Int) (rest : List Char) (hrest : headNotDigit rest) :
    lexGo .top (intChars i ++ rest) =
      (Token.num (decide (i < 0)) i.natAbs :: ·) <$> lexGo .top rest := by
  by_cases hi : i < 0
  · simp only [intChars, hi, if_true]
    show lexGo (.inNum true 0) (natDigits i.natAbs ++ rest) = _
    rw [lexGo_inNum (natDigits i.natAbs) true 0 rest (natDigits_all_digits _) hrest]
    have : digitsVal 0 (natDigits i.natAbs) = i.natAbs := natDigits_val _
    rw [this]
    simp [hi]
  · simp only [intChars, hi, if_false]
    rw [lexGo_natDigits_top _ _ hrest]
    simp [hi]

theorem headNotDigit_cons {c : Char} (h : c.isDigit = false) (l : List Char) :
    headNotDigit (c :: l) := h

/-- Lexing the canonical text of a well-formed tree produces its token
stream, compositionally in the remaining input. -/
theorem lexComp_field : ∀ f : Field, goodF f = true → ∀ rest, headNotDigit rest →
    lexGo .top (dumpNested f ++ rest) = (toksF f ++ ·) <$> lexGo .top rest := by
  refine @fieldIndF
    (fun f => goodF f = true → ∀ rest, headNotDigit rest →
      lexGo .top (dumpNested f ++ rest) = (toksF f ++ ·) <$> lexGo .top rest)
    (fun es => goodElems es = true → ∀ rest, headNotDigit rest →
      lexGo .top (dumpElems es ++ rest) = (toksElems es ++ ·) <$> lexGo .top rest)
    (fun es => goodEntries es = true → ∀ rest, headNotDigit rest →
      lexGo .top (dumpEntries es ++ rest) = (toksEntries es ++ ·) <$> lexGo .top rest)
    ?_ ?_ ?_ ?_ ?_ ?_ ?_ ?_ ?_ ?_ ?_
  · intro _ rest _
    show lexGo .top ('n' :: 'u' :: 'l' :: 'l' :: rest) = _
    rw [lexGo_null]
    rfl
  · intro b _ rest _
    cases b
    · show lexGo .top ('f' :: 'a' :: 'l' :: 's' :: 'e' :: rest) = _
      rw [lexGo_false]
      rfl
    · show lexGo .top ('t' :: 'r' :: 'u' :: 'e' :: rest) = _
      rw [lexGo_true]
      rfl
  · intro i _ rest hrest
    exact lexGo_intChars i rest hrest
  · intro d hf
    simp [goodF] at hf
  · intro s _ rest _
    show lexGo .top (('"' :: (escapeStr s.data ++ [ '"' ])) ++ rest) = _
    have heq : ('"' :: (escapeStr s.data ++ [ '"' ])) ++ rest =
        '"' :: (escapeStr s.data ++ ('"' :: rest)) := by simp
    rw [heq, lexGo_strToken]
    rfl
  · intro es ihE hf rest hrest
    cases es with
    | nil => simp [goodF] at hf
    | cons h t =>
      have hge : goodElems (.cons h t) = true := by
        simpa [goodF, goodElems] using hf
      show lexGo .top (('[' :: (dumpElems (.cons h t) ++ [ ']' ])) ++ rest) = _
      have heq : ('[' :: (dumpElems (.cons h t) ++ [ ']' ])) ++ rest =
          '[' :: (dumpElems (.cons h t) ++ (']' :: rest)) := by simp
      rw [heq, lexGo_lbrack, ihE hge (']' :: rest) (headNotDigit_cons (by decide) _),
        lexGo_rbrack]
      cases lexGo .top rest <;> simp [toksF]
  · intro es ihN hf rest hrest
    cases es with
    | nil => simp [goodF] at hf
    | cons k v t =>
      rw [goodF_object_cons, Bool.and_eq_true, Bool.and_eq_true,
        Bool.and_eq_true] at hf
      have hgn : goodEntries (.cons k v t) = true := by
        rw [goodEntries_cons]
        simp [hf.1, hf.2.2.1, hf.2.2.2]
      show lexGo .top (('{' :: (dumpEntries (.cons k v t) ++ [ '}' ])) ++ rest) = _
      have heq : ('{' :: (dumpEntries (.cons k v t) ++ [ '}' ])) ++ rest =
          '{' :: (dumpEntries (.cons k v t) ++ ('}' :: rest)) := by simp
      rw [heq, lexGo_lbrace, ihN hgn ('}' :: rest) (headNotDigit_cons (by decide) _),
        lexGo_rbrace]
      cases lexGo .top rest <;> simp [toksF]
  · intro _ rest _
    show lexGo .top ([] ++ rest) = _
    cases hr : lexGo .top rest <;> simp [toksElems, hr]
  · intro hd tl ihF ihE hge rest hrest
    cases tl with
    | nil =>
      have hf : goodF hd = true := by simpa [goodElems] using hge
      show lexGo .top (dumpNested hd ++ rest) = _
      rw [ihF hf rest hrest]
      rfl
    | cons h2 t2 =>
      simp only [goodElems, Bool.and_eq_true] at hge
      have h1 : goodF hd = true := hge.1
      have h2' : goodElems (.cons h2 t2) = true := by
        simp [goodElems, hge.2.1, hge.2.2]
      show lexGo .top ((dumpNested hd ++ ',' :: dumpElems (.cons h2 t2)) ++ rest) = _
      have heq : (dumpNested hd ++ ',' :: dumpElems (.cons h2 t2)) ++ rest =
          dumpNested hd ++ (',' :: (dumpElems (.cons h2 t2) ++ rest)) := by simp
      rw [heq, ihF h1 _ (headNotDigit_cons (by decide) _), lexGo_comma,
        ihE h2' rest hrest]
      cases lexGo .top rest <;> simp [toksElems]
  · intro _ rest _
    show lexGo .top ([] ++ rest) = _
    cases hr : lexGo .top rest <;> simp [toksEntries, hr]
  · intro k v t ihF ihN hgn rest hrest
    cases t with
    | nil =>
      rw [goodEntries_cons, Bool.and_eq_true, Bool.and_eq_true] at hgn
      have hf : goodF v = true := hgn.2.1
      have hck : cStr k.data = k.data := cStr_of_nulFree hgn.1
      show lexGo .top (('"' :: (escapeStr (cStr k.data) ++ '"' :: ':' :: dumpNested v)) ++ rest) = _
      rw [hck]
      have heq : ('"' :: (escapeStr k.data ++ '"' :: ':' :: dumpNested v)) ++ rest =
          '"' :: (escapeStr k.data ++ ('"' :: (':' :: (dumpNested v ++ rest)))) := by simp
      rw [heq, lexGo_strToken, lexGo_colon, ihF hf rest hrest]
      cases lexGo .top rest <;> simp [toksEntries]
    | cons k2 v2 t2 =>
      rw [goodEntries_cons, Bool.and_eq_true, Bool.and_eq_true] at hgn
      have h1 : goodF v = true := hgn.2.1
      have h2' : goodEntries (.cons k2 v2 t2) = true := hgn.2.2
      have hck : cStr k.data = k.data := cStr_of_nulFree hgn.1
      show lexGo .top ((('"' :: (escapeStr (cStr k.data) ++ '"' :: ':' :: dumpNested v)) ++
          ',' :: dumpEntries (.cons k2 v2 t2)) ++ rest) = _
      rw [hck]
      have heq : (('"' :: (escapeStr k.data ++ '"' :: ':' :: dumpNested v)) ++
          ',' :: dumpEntries (.cons k2 v2 t2)) ++ rest =
          '"' :: (escapeStr k.data ++ ('"' :: (':' :: (dumpNested v ++
            (',' :: (dumpEntries (.cons k2 v2 t2) ++ rest)))))) := by simp
      rw [heq, lexGo_strToken, lexGo_colon,
        ihF h1 _ (headNotDigit_cons (by decide) _), lexGo_comma, ihN h2' rest hrest]
      cases lexGo .top rest <;> simp [toksEntries]

/-! ### Eventizer lemmas -/

theorem evtz_lbrack_pV (ts : List Token) (st : List Ctx) :
    evtz (Token.lbrack :: ts) .pV st =
      (Event.startArray :: ·) <$> evtz ts .pVorClose (.inArr :: st) := rfl

theorem evtz_lbrack_pVC (ts : List Token) (st : List Ctx) :
    evtz (Token.lbrack :: ts) .pVorClose st =
      (Event.startArray :: ·) <$> evtz ts .pVorClose (.inArr :: st) := rfl

theorem evtz_lbrace_pV (ts : List Token) (st : List Ctx) :
    evtz (Token.lbrace :: ts) .pV st =
      (Event.startObject :: ·) <$> evtz ts .pKeyOrClose (.inObj :: st) := rfl

theorem evtz_lbrace_pVC (ts : List Token) (st : List Ctx) :
    evtz (Token.lbrace :: ts) .pVorClose st =
      (Event.startObject :: ·) <$> evtz ts .pKeyOrClose (.inObj :: st) := rfl

theorem evtz_rbrack_after (ts : List Token) (st : List Ctx) :
    evtz (Token.rbrack :: ts) .pAfter (Ctx.inArr :: st) =
      (Event.endArray :: ·) <$> evtz ts .pAfter st := rfl

theorem evtz_rbrace_after (ts : List Token) (st : List Ctx) :
    evtz (Token.rbrace :: ts) .pAfter (Ctx.inObj :: st) =
      (Event.endObject :: ·) <$> evtz ts .pAfter st := rfl

theorem evtz_comma_after_obj (ts : List Token) (st : List Ctx) :
    evtz (Token.comma :: ts) .pAfter (Ctx.inObj :: st) =
      evtz ts .pKeyOrClose (Ctx.inObj :: st) := rfl

theorem evtz_comma_after_arr (ts : List Token) (st : List Ctx) :
    evtz (Token.comma :: ts) .pAfter (Ctx.inArr :: st) =
      evtz ts .pV (Ctx.inArr :: st) := rfl

theorem evtz_key (s : String) (ts : List Token) (st : List Ctx) :
    evtz (Token.str s :: ts) .pKeyOrClose st =
      (Event.key s :: ·) <$> evtz ts .pColon st := rfl

theorem evtz_colon (ts : List Token) (st : List Ctx) :
    evtz (Token.colon :: ts) .pColon st = evtz ts .pV st := rfl

theorem evF_integer (i : Int) :
    evF (.integerF i) = [numEvent (decide (i < 0)) i.natAbs] := by
  by_cases hi : i < 0
  · have h1 : decide (i < 0) = true := by simp [hi]
    have hn : -(i.natAbs : Int) = i := by omega
    rw [h1]
    show evF (.integerF i) = [Event.numberInteger (-(i.natAbs : Int))]
    rw [hn]
    simp [evF, hi]
  · have h1 : decide (i < 0) = false := by simp [hi]
    have hn : (i.natAbs : Nat) = i.toNat := by omega
    rw [h1]
    show evF (.integerF i) = [Event.numberUnsigned i.natAbs]
    rw [hn]
    simp [evF, hi]

/-- Eventizing the token stream of a well-formed tree produces its SAX event
stream, compositionally. -/
theorem evtzComp_field : ∀ f : Field, goodF f = true →
    ∀ (restT : List Token) (ph : Ph) (st : List Ctx), ph = .pV ∨ ph = .pVorClose →
    evtz (toksF f ++ restT) ph st = (evF f ++ ·) <$> evtz restT .pAfter st := by
  refine @fieldIndF
    (fun f => goodF f = true → ∀ restT ph st, ph = Ph.pV ∨ ph = Ph.pVorClose →
      evtz (toksF f ++ restT) ph st = (evF f ++ ·) <$> evtz restT .pAfter st)
    (fun es => goodElems es = true → es ≠ .nil → ∀ restT st ph,
      ph = Ph.pV ∨ ph = Ph.pVorClose →
      evtz (toksElems es ++ (Token.rbrack :: restT)) ph (.inArr :: st) =
        ((evElems es ++ [Event.endArray]) ++ ·) <$> evtz restT .pAfter st)
    (fun es => goodEntries es = true → es ≠ .nil → ∀ restT st,
      evtz (toksEntries es ++ (Token.rbrace :: restT)) .pKeyOrClose (.inObj :: st) =
        ((evEntries es ++ [Event.endObject]) ++ ·) <$> evtz restT .pAfter st)
    ?_ ?_ ?_ ?_ ?_ ?_ ?_ ?_ ?_ ?_ ?_
  · intro _ restT ph st hph
    rcases hph with hp | hp <;> subst hp <;> rfl
  · intro b _ restT ph st hph
    cases b <;> rcases hph with hp | hp <;> subst hp <;> rfl
  · intro i _ restT ph st hph
    have hev := evF_integer i
    rcases hph with hp | hp <;> subst hp <;> rw [hev] <;> rfl
  · intro d hf
    simp [goodF] at hf
  · intro s _ restT ph st hph
    rcases hph with hp | hp <;> subst hp <;> rfl
  · intro es ihE hf restT ph st hph
    cases es with
    | nil => simp [goodF] at hf
    | cons h t =>
      have hge : goodElems (.cons h t) = true := by
        simpa [goodF, goodElems] using hf
      have heq : (Token.lbrack :: (toksElems (.cons h t) ++ [Token.rbrack])) ++ restT =
          Token.lbrack :: (toksElems (.cons h t) ++ (Token.rbrack :: restT)) := by simp
      rcases hph with hp | hp
      · subst hp
        show evtz ((Token.lbrack :: (toksElems (.cons h t) ++ [Token.rbrack])) ++ restT)
            .pV st = _
        rw [heq, evtz_lbrack_pV, ihE hge (by simp) restT st .pVorClose (Or.inr rfl)]
        cases evtz restT .pAfter st <;> simp [evF]
      · subst hp
        show evtz ((Token.lbrack :: (toksElems (.cons h t) ++ [Token.rbrack])) ++ restT)
            .pVorClose st = _
        rw [heq, evtz_lbrack_pVC, ihE hge (by simp) restT st .pVorClose (Or.inr rfl)]
        cases evtz restT .pAfter st <;> simp [evF]
  · intro es ihN hf restT ph st hph
    cases es with
    | nil => simp [goodF] at hf
    | cons k v t =>
      rw [goodF_object_cons, Bool.and_eq_true, Bool.and_eq_true,
        Bool.and_eq_true] at hf
      have hgn : goodEntries (.cons k v t) = true := by
        rw [goodEntries_cons]
        simp [hf.1, hf.2.2.1, hf.2.2.2]
      have heq : (Token.lbrace :: (toksEntries (.cons k v t) ++ [Token.rbrace])) ++ restT =
          Token.lbrace :: (toksEntries (.cons k v t) ++ (Token.rbrace :: restT)) := by simp
      rcases hph with hp | hp
      · subst hp
        show evtz ((Token.lbrace :: (toksEntries (.cons k v t) ++ [Token.rbrace])) ++ restT)
            .pV st = _
        rw [heq, evtz_lbrace_pV, ihN hgn (by simp) restT st]
        cases evtz restT .pAfter st <;> simp [evF]
      · subst hp
        show evtz ((Token.lbrace :: (toksEntries (.cons k v t) ++ [Token.rbrace])) ++ restT)
            .pVorClose st = _
        rw [heq, evtz_lbrace_pVC, ihN hgn (by simp) restT st]
        cases evtz restT .pAfter st <;> simp [evF]
  · intro _ hne
    exact absurd rfl hne
  · intro hd tl ihF ihE hge _ restT st ph hph
    cases tl with
    | nil =>
      have hf : goodF hd = true := by simpa [goodElems] using hge
      show evtz (toksF hd ++ (Token.rbrack :: restT)) ph (.inArr :: st) = _
      rw [ihF hf (Token.rbrack :: restT) ph (.inArr :: st) hph, evtz_rbrack_after]
      cases evtz restT .pAfter st <;> simp [evElems]
    | cons h2 t2 =>
      simp only [goodElems, Bool.and_eq_true] at hge
      have h1 : goodF hd = true := hge.1
      have h2' : goodElems (.cons h2 t2) = true := by
        simp [goodElems, hge.2.1, hge.2.2]
      have heq : (toksF hd ++ Token.comma :: toksElems (.cons h2 t2)) ++
          (Token.rbrack :: restT) =
          toksF hd ++ (Token.comma :: (toksElems (.cons h2 t2) ++
            (Token.rbrack :: restT))) := by simp
      show evtz ((toksF hd ++ Token.comma :: toksElems (.cons h2 t2)) ++
          (Token.rbrack :: restT)) ph (.inArr :: st) = _
      rw [heq, ihF h1 _ ph (.inArr :: st) hph, evtz_comma_after_arr,
        ihE h2' (by simp) restT st .pV (Or.inl rfl)]
      cases evtz restT .pAfter st <;> simp [evElems]
  · intro _ hne
    exact absurd rfl hne
  · intro k v t ihF ihN hgn _ restT st
    cases t with
    | nil =>
      rw [goodEntries_cons, Bool.and_eq_true, Bool.and_eq_true] at hgn
      have hf : goodF v = true := hgn.2.1
      show evtz ((Token.str k :: Token.colon :: toksF v) ++ (Token.rbrace :: restT))
          .pKeyOrClose (.inObj :: st) = _
      have heq : (Token.str k :: Token.colon :: toksF v) ++ (Token.rbrace :: restT) =
          Token.str k :: (Token.colon :: (toksF v ++ (Token.rbrace :: restT))) := by simp
      rw [heq, evtz_key, evtz_colon, ihF hf _ .pV (.inObj :: st) (Or.inl rfl),
        evtz_rbrace_after]
      cases evtz restT .pAfter st <;> simp [evEntries]
    | cons k2 v2 t2 =>
      rw [goodEntries_cons, Bool.and_eq_true, Bool.and_eq_true] at hgn
      have h1 : goodF v = true := hgn.2.1
      have h2' : goodEntries (.cons k2 v2 t2) = true := hgn.2.2
      show evtz (((Token.str k :: Token.colon :: toksF v) ++
          Token.comma :: toksEntries (.cons k2 v2 t2)) ++ (Token.rbrace :: restT))
          .pKeyOrClose (.inObj :: st) = _
      have heq : ((Token.str k :: Token.colon :: toksF v) ++
          Token.comma :: toksEntries (.cons k2 v2 t2)) ++ (Token.rbrace :: restT) =
          Token.str k :: (Token.colon :: (toksF v ++ (Token.comma ::
            (toksEntries (.cons k2 v2 t2) ++ (Token.rbrace :: restT))))) := by simp
      rw [heq, evtz_key, evtz_colon, ihF h1 _ .pV (.inObj :: st) (Or.inl rfl),
        evtz_comma_after_obj, ihN h2' (by simp) restT st]
      cases evtz restT .pAfter st <;> simp [evEntries]

/-! ### Handler-run lemmas: the construction machinery rebuilds the tree -/

/-- Feeding the event stream of a well-formed value to the handler inserts
the value into the open object (in `ExpectValueOrStartObjectArray`) or
appends it to the open array (in `ExpectArrayValueOrEndArray`),
compositionally in the remaining events.  The final pending-key buffer is
existential: keys of nested objects overwrite it. -/
theorem runComp_field : ∀ f : Field, goodF f = true →
    ((∀ (post : List Event) (es : Entries) (ak : String) (frs : List Frame)
        (kb : String) (dn : Option Field) (em et : String) (eo : Nat), ∃ kb2,
      runOkFrom ⟨.expectValueOrStartObjectArray, ⟨.fObj es, ak⟩ :: frs, kb, dn, em, et, eo⟩
          (evF f ++ post) =
        runOkFrom ⟨.expectKeyOrEndObject, ⟨.fObj (es.insertS kb f), ak⟩ :: frs, kb2, dn, em, et, eo⟩
          post) ∧
     (∀ (post : List Event) (es : Elems) (ak : String) (frs : List Frame)
        (kb : String) (dn : Option Field) (em et : String) (eo : Nat), ∃ kb2,
      runOkFrom ⟨.expectArrayValueOrEndArray, ⟨.fArr es, ak⟩ :: frs, kb, dn, em, et, eo⟩
          (evF f ++ post) =
        runOkFrom ⟨.expectArrayValueOrEndArray, ⟨.fArr (es.push f), ak⟩ :: frs, kb2, dn, em, et, eo⟩
          post)) := by
  refine @fieldIndF
    (fun f => goodF f = true →
      ((∀ (post : List Event) (es : Entries) (ak : String) (frs : List Frame)
          (kb : String) (dn : Option Field) (em et : String) (eo : Nat), ∃ kb2,
        runOkFrom ⟨.expectValueOrStartObjectArray, ⟨.fObj es, ak⟩ :: frs, kb, dn, em, et, eo⟩
            (evF f ++ post) =
          runOkFrom ⟨.expectKeyOrEndObject, ⟨.fObj (es.insertS kb f), ak⟩ :: frs, kb2, dn, em, et, eo⟩
            post) ∧
       (∀ (post : List Event) (es : Elems) (ak : String) (frs : List Frame)
          (kb : String) (dn : Option Field) (em et : String) (eo : Nat), ∃ kb2,
        runOkFrom ⟨.expectArrayValueOrEndArray, ⟨.fArr es, ak⟩ :: frs, kb, dn, em, et, eo⟩
            (evF f ++ post) =
          runOkFrom ⟨.expectArrayValueOrEndArray, ⟨.fArr (es.push f), ak⟩ :: frs, kb2, dn, em, et, eo⟩
            post)))
    (fun es0 => goodElems es0 = true →
      ∀ (post : List Event) (arr : Elems) (ak : String) (frs : List Frame)
        (kb : String) (dn : Option Field) (em et : String) (eo : Nat), ∃ kb2,
      runOkFrom ⟨.expectArrayValueOrEndArray, ⟨.fArr arr, ak⟩ :: frs, kb, dn, em, et, eo⟩
          (evElems es0 ++ post) =
        runOkFrom ⟨.expectArrayValueOrEndArray, ⟨.fArr (arr.appendE es0), ak⟩ :: frs, kb2, dn, em, et, eo⟩
          post)
    (fun es0 => goodEntries es0 = true →
      ∀ (post : List Event) (obj : Entries) (ak : String) (frs : List Frame)
        (kb : String) (dn : Option Field) (em et : String) (eo : Nat), ∃ kb2,
      runOkFrom ⟨.expectKeyOrEndObject, ⟨.fObj obj, ak⟩ :: frs, kb, dn, em, et, eo⟩
          (evEntries es0 ++ post) =
        runOkFrom ⟨.expectKeyOrEndObject, ⟨.fObj (obj.insFold es0), ak⟩ :: frs, kb2, dn, em, et, eo⟩
          post)
    ?_ ?_ ?_ ?_ ?_ ?_ ?_ ?_ ?_ ?_ ?_
  · intro _
    exact ⟨fun post es ak frs kb dn em et eo => ⟨kb, rfl⟩,
      fun post es ak frs kb dn em et eo => ⟨kb, rfl⟩⟩
  · intro b _
    exact ⟨fun post es ak frs kb dn em et eo => ⟨kb, rfl⟩,
      fun post es ak frs kb dn em et eo => ⟨kb, rfl⟩⟩
  · intro i hg
    have hr : intInRange i = true := by simpa [goodF] using hg
    have hr2 : -(2 ^ 63) ≤ i ∧ i < 2 ^ 63 := by simpa [intInRange] using hr
    constructor
    · intro post es ak frs kb dn em et eo
      refine ⟨kb, ?_⟩
      by_cases hi : i < 0
      · simp only [evF, hi, if_true]
        rfl
      · have ht : toInt64 i.toNat = i := toInt64_toNat (by omega) hr2.2
        simp only [evF, hi, if_false]
        show runOkFrom ⟨.expectKeyOrEndObject,
            ⟨.fObj (es.insertS kb (.integerF (toInt64 i.toNat))), ak⟩ :: frs,
            kb, dn, em, et, eo⟩ post = _
        rw [ht]
    · intro post es ak frs kb dn em et eo
      refine ⟨kb, ?_⟩
      by_cases hi : i < 0
      · simp only [evF, hi, if_true]
        rfl
      · have ht : toInt64 i.toNat = i := toInt64_toNat (by omega) hr2.2
        simp only [evF, hi, if_false]
        show runOkFrom ⟨.expectArrayValueOrEndArray,
            ⟨.fArr (es.push (.integerF (toInt64 i.toNat))), ak⟩ :: frs,
            kb, dn, em, et, eo⟩ post = _
        rw [ht]
  · intro d hg
    simp [goodF] at hg
  · intro s _
    exact ⟨fun post es ak frs kb dn em et eo => ⟨kb, rfl⟩,
      fun post es ak frs kb dn em et eo => ⟨kb, rfl⟩⟩
  · intro es ihE hf
    cases es with
    | nil => simp [goodF] at hf
    | cons h t =>
      have hge : goodElems (.cons h t) = true := by
        simpa [goodF, goodElems] using hf
      constructor
      · intro post es0 ak frs kb dn em et eo
        have heq : evF (.arrayF (.cons h t)) ++ post =
            Event.startArray :: (evElems (.cons h t) ++ (Event.endArray :: post)) := by
          simp [evF]
        rw [heq]
        obtain ⟨kb2, h2⟩ := ihE hge (Event.endArray :: post) .nil kb
          (⟨.fObj es0, ak⟩ :: frs) kb dn em et eo
        have s1 : runOkFrom ⟨.expectValueOrStartObjectArray, ⟨.fObj es0, ak⟩ :: frs, kb, dn, em, et, eo⟩ (Event.startArray :: (evElems (.cons h t) ++ (Event.endArray :: post))) = runOkFrom ⟨.expectArrayValueOrEndArray, ⟨.fArr .nil, kb⟩ :: ⟨.fObj es0, ak⟩ :: frs, kb, dn, em, et, eo⟩ (evElems (.cons h t) ++ (Event.endArray :: post)) := rfl
        have s3 : runOkFrom ⟨.expectArrayValueOrEndArray, ⟨.fArr (Elems.nil.appendE (.cons h t)), kb⟩ :: ⟨.fObj es0, ak⟩ :: frs, kb2, dn, em, et, eo⟩ (Event.endArray :: post) = runOkFrom ⟨.expectKeyOrEndObject, ⟨.fObj (es0.insertS kb (.arrayF (.cons h t))), ak⟩ :: frs, kb2, dn, em, et, eo⟩ post := rfl
        exact ⟨kb2, s1.trans (h2.trans s3)⟩
      · intro post es0 ak frs kb dn em et eo
        have heq : evF (.arrayF (.cons h t)) ++ post =
            Event.startArray :: (evElems (.cons h t) ++ (Event.endArray :: post)) := by
          simp [evF]
        rw [heq]
        obtain ⟨kb2, h2⟩ := ihE hge (Event.endArray :: post) .nil kb
          (⟨.fArr es0, ak⟩ :: frs) kb dn em et eo
        have s1 : runOkFrom ⟨.expectArrayValueOrEndArray, ⟨.fArr es0, ak⟩ :: frs, kb, dn, em, et, eo⟩ (Event.startArray :: (evElems (.cons h t) ++ (Event.endArray :: post))) = runOkFrom ⟨.expectArrayValueOrEndArray, ⟨.fArr .nil, kb⟩ :: ⟨.fArr es0, ak⟩ :: frs, kb, dn, em, et, eo⟩ (evElems (.cons h t) ++ (Event.endArray :: post)) := rfl
        have s3 : runOkFrom ⟨.expectArrayValueOrEndArray, ⟨.fArr (Elems.nil.appendE (.cons h t)), kb⟩ :: ⟨.fArr es0, ak⟩ :: frs, kb2, dn, em, et, eo⟩ (Event.endArray :: post) = runOkFrom ⟨.expectArrayValueOrEndArray, ⟨.fArr (es0.push (.arrayF (.cons h t))), ak⟩ :: frs, kb2, dn, em, et, eo⟩ post := rfl
        exact ⟨kb2, s1.trans (h2.trans s3)⟩
  · intro es ihN hf
    cases es with
    | nil => simp [goodF] at hf
    | cons k v t =>
      rw [goodF_object_cons, Bool.and_eq_true, Bool.and_eq_true,
        Bool.and_eq_true] at hf
      have hgn : goodEntries (.cons k v t) = true := by
        rw [goodEntries_cons]
        simp [hf.1, hf.2.2.1, hf.2.2.2]
      have hsort : Entries.sortedB (.cons k v t) = true := hf.2.1
      have hfold : Entries.insFold .nil (.cons k v t) = .cons k v t :=
        insFold_nil_of_sortedB hsort
      constructor
      · intro post es0 ak frs kb dn em et eo
        have heq : evF (.objectF (.cons k v t)) ++ post =
            Event.startObject :: (evEntries (.cons k v t) ++ (Event.endObject :: post)) := by
          simp [evF]
        rw [heq]
        obtain ⟨kb2, h2⟩ := ihN hgn (Event.endObject :: post) .nil kb
          (⟨.fObj es0, ak⟩ :: frs) kb dn em et eo
        rw [hfold] at h2
        have s1 : runOkFrom ⟨.expectValueOrStartObjectArray, ⟨.fObj es0, ak⟩ :: frs, kb, dn, em, et, eo⟩ (Event.startObject :: (evEntries (.cons k v t) ++ (Event.endObject :: post))) = runOkFrom ⟨.expectKeyOrEndObject, ⟨.fObj .nil, kb⟩ :: ⟨.fObj es0, ak⟩ :: frs, kb, dn, em, et, eo⟩ (evEntries (.cons k v t) ++ (Event.endObject :: post)) := rfl
        have s3 : runOkFrom ⟨.expectKeyOrEndObject, ⟨.fObj (.cons k v t), kb⟩ :: ⟨.fObj es0, ak⟩ :: frs, kb2, dn, em, et, eo⟩ (Event.endObject :: post) = runOkFrom ⟨.expectKeyOrEndObject, ⟨.fObj (es0.insertS kb (.objectF (.cons k v t))), ak⟩ :: frs, kb2, dn, em, et, eo⟩ post := rfl
        exact ⟨kb2, s1.trans (h2.trans s3)⟩
      · intro post es0 ak frs kb dn em et eo
        have heq : evF (.objectF (.cons k v t)) ++ post =
            Event.startObject :: (evEntries (.cons k v t) ++ (Event.endObject :: post)) := by
          simp [evF]
        rw [heq]
        obtain ⟨kb2, h2⟩ := ihN hgn (Event.endObject :: post) .nil kb
          (⟨.fArr es0, ak⟩ :: frs) kb dn em et eo
        rw [hfold] at h2
        have s1 : runOkFrom ⟨.expectArrayValueOrEndArray, ⟨.fArr es0, ak⟩ :: frs, kb, dn, em, et, eo⟩ (Event.startObject :: (evEntries (.cons k v t) ++ (Event.endObject :: post))) = runOkFrom ⟨.expectKeyOrEndObject, ⟨.fObj .nil, kb⟩ :: ⟨.fArr es0, ak⟩ :: frs, kb, dn, em, et, eo⟩ (evEntries (.cons k v t) ++ (Event.endObject :: post)) := rfl
        have s3 : runOkFrom ⟨.expectKeyOrEndObject, ⟨.fObj (.cons k v t), kb⟩ :: ⟨.fArr es0, ak⟩ :: frs, kb2, dn, em, et, eo⟩ (Event.endObject :: post) = runOkFrom ⟨.expectArrayValueOrEndArray, ⟨.fArr (es0.push (.objectF (.cons k v t))), ak⟩ :: frs, kb2, dn, em, et, eo⟩ post := rfl
        exact ⟨kb2, s1.trans (h2.trans s3)⟩
  · intro _ post arr ak frs kb dn em et eo
    refine ⟨kb, ?_⟩
    rw [appendE_nil]
    rfl
  · intro hd tl ihF ihE hge post arr ak frs kb dn em et eo
    simp only [goodElems, Bool.and_eq_true] at hge
    have heq : evElems (.cons hd tl) ++ post = evF hd ++ (evElems tl ++ post) := by
      simp [evElems]
    rw [heq]
    obtain ⟨kb2, h2⟩ := (ihF hge.1).2 (evElems tl ++ post) arr ak frs kb dn em et eo
    obtain ⟨kb3, h3⟩ := ihE hge.2 post (arr.push hd) ak frs kb2 dn em et eo
    refine ⟨kb3, ?_⟩
    rw [h2, h3, push_appendE]
  · intro _ post obj ak frs kb dn em et eo
    exact ⟨kb, rfl⟩
  · intro k v t ihF ihN hgn post obj ak frs kb dn em et eo
    rw [goodEntries_cons, Bool.and_eq_true, Bool.and_eq_true] at hgn
    have heq : evEntries (.cons k v t) ++ post =
        Event.key k :: (evF v ++ (evEntries t ++ post)) := by
      simp [evEntries]
    rw [heq]
    obtain ⟨kb2, h2⟩ := (ihF hgn.2.1).1 (evEntries t ++ post) obj ak frs k dn em et eo
    obtain ⟨kb3, h3⟩ := ihN hgn.2.2 post (obj.insertS k v) ak frs kb2 dn em et eo
    refine ⟨kb3, ?_⟩
    have s1 : runOkFrom ⟨.expectKeyOrEndObject, ⟨.fObj obj, ak⟩ :: frs, kb, dn, em, et, eo⟩ (Event.key k :: (evF v ++ (evEntries t ++ post))) = runOkFrom ⟨.expectValueOrStartObjectArray, ⟨.fObj obj, ak⟩ :: frs, k, dn, em, et, eo⟩ (evF v ++ (evEntries t ++ post)) := rfl
    exact s1.trans (h2.trans h3)

theorem runComp_elems : ∀ es0 : Elems, goodElems es0 = true →
    ∀ (post : List Event) (arr : Elems) (ak : String) (frs : List Frame)
      (kb : String) (dn : Option Field) (em et : String) (eo : Nat), ∃ kb2,
    runOkFrom ⟨.expectArrayValueOrEndArray, ⟨.fArr arr, ak⟩ :: frs, kb, dn, em, et, eo⟩
        (evElems es0 ++ post) =
      runOkFrom ⟨.expectArrayValueOrEndArray, ⟨.fArr (arr.appendE es0), ak⟩ :: frs, kb2, dn, em, et, eo⟩
        post := by
  intro es0
  induction es0 using elemsInd with
  | hnil =>
    intro _ post arr ak frs kb dn em et eo
    refine ⟨kb, ?_⟩
    rw [appendE_nil]
    rfl
  | hcons hd tl ih =>
    intro hge post arr ak frs kb dn em et eo
    simp only [goodElems, Bool.and_eq_true] at hge
    have heq : evElems (.cons hd tl) ++ post = evF hd ++ (evElems tl ++ post) := by
      simp [evElems]
    rw [heq]
    obtain ⟨kb2, h2⟩ := (runComp_field hd hge.1).2 (evElems tl ++ post) arr ak frs kb dn em et eo
    obtain ⟨kb3, h3⟩ := ih hge.2 post (arr.push hd) ak frs kb2 dn em et eo
    refine ⟨kb3, ?_⟩
    rw [h2, h3, push_appendE]

theorem runComp_entries : ∀ es0 : Entries, goodEntries es0 = true →
    ∀ (post : List Event) (obj : Entries) (ak : String) (frs : List Frame)
      (kb : String) (dn : Option Field) (em et : String) (eo : Nat), ∃ kb2,
    runOkFrom ⟨.expectKeyOrEndObject, ⟨.fObj obj, ak⟩ :: frs, kb, dn, em, et, eo⟩
        (evEntries es0 ++ post) =
      runOkFrom ⟨.expectKeyOrEndObject, ⟨.fObj (obj.insFold es0), ak⟩ :: frs, kb2, dn, em, et, eo⟩
        post := by
  intro es0
  induction es0 using entriesInd with
  | hnil =>
    intro _ post obj ak frs kb dn em et eo
    exact ⟨kb, rfl⟩
  | hcons k v t ih =>
    intro hgn post obj ak frs kb dn em et eo
    rw [goodEntries_cons, Bool.and_eq_true, Bool.and_eq_true] at hgn
    have heq : evEntries (.cons k v t) ++ post =
        Event.key k :: (evF v ++ (evEntries t ++ post)) := by
      simp [evEntries]
    rw [heq]
    obtain ⟨kb2, h2⟩ := (runComp_field v hgn.2.1).1 (evEntries t ++ post) obj ak frs k dn em et eo
    obtain ⟨kb3, h3⟩ := ih hgn.2.2 post (obj.insertS k v) ak frs kb2 dn em et eo
    refine ⟨kb3, ?_⟩
    have s1 : runOkFrom ⟨.expectKeyOrEndObject, ⟨.fObj obj, ak⟩ :: frs, kb, dn, em, et, eo⟩ (Event.key k :: (evF v ++ (evEntries t ++ post))) = runOkFrom ⟨.expectValueOrStartObjectArray, ⟨.fObj obj, ak⟩ :: frs, k, dn, em, et, eo⟩ (evF v ++ (evEntries t ++ post)) := rfl
    exact s1.trans (h2.trans h3)

/-- Feeding the full event stream of a well-formed container-rooted tree to
a fresh handler ends in `ExpectFinished` with the tree as the completed
root. -/
theorem runOk_root (f : Field) (hroot : f.tag = .tArray ∨ f.tag = .tObject)
    (hgood : goodF f = true) :
    ∃ kb2, runOk (evF f) =
      some ⟨.expectFinished, [], kb2, some f, (""), (""), 0⟩ := by
  cases f with
  | nullF => simp [Field.tag] at hroot
  | booleanF b => simp [Field.tag] at hroot
  | integerF i => simp [Field.tag] at hroot
  | doubleF d => simp [Field.tag] at hroot
  | stringF s => simp [Field.tag] at hroot
  | arrayF es =>
    cases es with
    | nil => simp [goodF] at hgood
    | cons h t =>
      have hge : goodElems (.cons h t) = true := by
        simpa [goodF, goodElems] using hgood
      obtain ⟨kb2, h2⟩ := runComp_elems (.cons h t) hge [Event.endArray] .nil ("")
        [] ("") none ("") ("") 0
      refine ⟨kb2, ?_⟩
      have s1 : runOk (evF (.arrayF (.cons h t))) = runOkFrom ⟨.expectArrayValueOrEndArray, [⟨.fArr .nil, ("")⟩], (""), none, (""), (""), 0⟩ (evElems (.cons h t) ++ [Event.endArray]) := rfl
      have s3 : runOkFrom ⟨.expectArrayValueOrEndArray, [⟨.fArr (Elems.nil.appendE (.cons h t)), ("")⟩], kb2, none, (""), (""), 0⟩ [Event.endArray] = some ⟨.expectFinished, [], kb2, some (.arrayF (.cons h t)), (""), (""), 0⟩ := rfl
      exact s1.trans (h2.trans s3)
  | objectF es =>
    cases es with
    | nil => simp [goodF] at hgood
    | cons k v t =>
      rw [goodF_object_cons, Bool.and_eq_true, Bool.and_eq_true,
        Bool.and_eq_true] at hgood
      have hgn : goodEntries (.cons k v t) = true := by
        rw [goodEntries_cons]
        simp [hgood.1, hgood.2.2.1, hgood.2.2.2]
      have hsort : Entries.sortedB (.cons k v t) = true := hgood.2.1
      obtain ⟨kb2, h2⟩ := runComp_entries (.cons k v t) hgn [Event.endObject] .nil ("")
        [] ("") none ("") ("") 0
      rw [insFold_nil_of_sortedB hsort] at h2
      refine ⟨kb2, ?_⟩
      have s1 : runOk (evF (.objectF (.cons k v t))) = runOkFrom ⟨.expectKeyOrEndObject, [⟨.fObj .nil, ("")⟩], (""), none, (""), (""), 0⟩ (evEntries (.cons k v t) ++ [Event.endObject]) := rfl
      have s3 : runOkFrom ⟨.expectKeyOrEndObject, [⟨.fObj (.cons k v t), ("")⟩], kb2, none, (""), (""), 0⟩ [Event.endObject] = some ⟨.expectFinished, [], kb2, some (.objectF (.cons k v t)), (""), (""), 0⟩ := rfl
      exact s1.trans (h2.trans s3)

theorem runEvents_of_runOkFrom {s' : HandlerState} : ∀ {evs : List Event}
    {s : HandlerState}, runOkFrom s evs = some s' → runEvents s evs = .fin s' := by
  intro evs
  induction evs with
  | nil =>
    intro s h
    simp only [runOkFrom] at h
    cases h
    rfl
  | cons e t ih =>
    intro s h
    cases hstep : step s e with
    | ok s1 =>
      simp only [runOkFrom, hstep] at h
      simp only [runEvents, hstep]
      exact ih h
    | stop s1 => simp [runOkFrom, hstep] at h
    | unreached => simp [runOkFrom, hstep] at h
    | ub => simp [runOkFrom, hstep] at h
    | exn m => simp [runOkFrom, hstep] at h

/-- C8 counterexample: the empty-object tree is built purely from
deterministic scalar values, but its canonical text is `null` (an empty
container leaves the default-constructed json value null), and feeding that
text back through the factory yields no tree at all (a scalar root makes
`handleValueEvent` return `false` and `getRoot` stays null). -/
theorem c8_counterexample_empty_object_not_roundtrippable :
    (Field.objectF .nil).asJsonString = some ("null") ∧
    loadFromString ("null") = .ret none := ⟨rfl, rfl⟩

/-- C8 (amended): for every Array- or Object-rooted tree that is built
purely from deterministic scalar values within `int64` range, contains no
floating-point payloads and no empty sub-containers, whose object keys hold
no embedded NUL bytes (serialization truncates each member name at its
first NUL via `std::string(item.first.c_str())`), and carries the sorted
map representation the construction machinery produces, reloading its
canonical text through the factory entry point reproduces the identical
tree — hence every accessor call supported by the original tree returns an
identical result on the reloaded tree. -/
theorem c8_roundtrip_canonical_text (f : Field)
    (hroot : f.tag = .tArray ∨ f.tag = .tObject) (hgood : goodF f = true) :
    ∃ s, f.asJsonString = some s ∧ loadFromString s = .ret (some f) := by
  refine ⟨String.mk (dumpNested f), ?_, ?_⟩
  · cases f with
    | nullF => simp [Field.tag] at hroot
    | booleanF b => simp [Field.tag] at hroot
    | integerF i => simp [Field.tag] at hroot
    | doubleF d => simp [Field.tag] at hroot
    | stringF s => simp [Field.tag] at hroot
    | arrayF es => rfl
    | objectF es => rfl
  · unfold loadFromString
    have hsax : saxParse (String.mk (dumpNested f)) = evF f := by
      have hlex : lexGo .top (dumpNested f) = some (toksF f) := by
        have h := lexComp_field f hgood [] trivial
        rw [show lexGo LexMode.top ([] : List Char) = some [] from rfl] at h
        simpa using h
      have hevtz : evtz (toksF f) .pV [] = some (evF f) := by
        have h := evtzComp_field f hgood [] .pV [] (Or.inl rfl)
        rw [show evtz ([] : List Token) Ph.pAfter [] = some [] from rfl] at h
        simpa using h
      unfold saxParse
      simp [hlex, hevtz]
    rw [hsax]
    obtain ⟨kb2, hrun⟩ := runOk_root f hroot hgood
    unfold loadFromEvents
    rw [runEvents_of_runOkFrom hrun]
    simp [HandlerState.getRoot]

theorem c8_roundtrip_canonical_text_witness :
    ∃ s, (Field.objectF (.cons ("a") (.booleanF true) .nil)).asJsonString = some s ∧
      loadFromString s =
        .ret (some (Field.objectF (.cons ("a") (.booleanF true) .nil))) :=
  c8_roundtrip_canonical_text _ (Or.inr rfl) (by decide)

end EnvoyJson
